import Mathlib

/-!
# QueueCTL: the job store's claim protocol and the worker retry state machine

A shallow embedding of `internal/job/job.go`, `internal/storage/storage.go` and
`internal/worker/worker.go`.

Modelling conventions.

* A `time.Time` is an instant, an integer number of nanoseconds counted from Go's zero
  time, together with the zone offset it is displayed in; `time.Time{}` is `0`, in UTC,
  and `t.IsZero()` looks at the instant only.  A `time.Duration` is an `int64` count of
  nanoseconds.
* The driver binds a `time.Time` as the text `2006-01-02 15:04:05.999999999-07:00` of the
  time in its own zone, and SQLite compares and sorts these values as text, byte by byte.
  `timeText` is that rendering (proleptic Gregorian date, fraction with trailing zeros
  removed, offset as `+hh:mm`), `bytesLE` the byte order; the comparison
  `next_run_at <= ?` and the ordering `ORDER BY created_at` are `bytesLE` of the texts.
  A stored timestamp is kept as the `Time` whose text the cell holds, which is what a
  `Scan` of the cell returns.
* Go's `int` and `int64` are integers kept in `[-2^63, 2^63)` by `wrap64`, which is
  applied wherever the source does arithmetic on them.
* The `jobs` table is the list of its rows in insertion order.  `id` is the PRIMARY KEY,
  so an INSERT under an existing `id` fails; theorems that need the key to be unique
  take `idsUnique` as a hypothesis.  `next_run_at` is nullable (the claim query tests
  `IS NULL`); the other columns always hold the values `SaveJob` wrote.
* The storage engine itself is available: the only error the model produces is the
  failed INSERT on a duplicate key.  A Go `error` result is `Option String`, `none`
  being `nil`.
* Every `time.Now()` the source reads is an explicit argument, one per read; the fresh
  identifier from `uuid.New()` and the outcome of `cmd.Run()` are arguments as well.
-/

set_option maxRecDepth 4000

set_option maxHeartbeats 1000000

namespace QueueCTL

/-- A `time.Time`: the instant `ns`, in nanoseconds since 0001-01-01 00:00:00 UTC, and
the zone `offset`, in minutes east of UTC, in which the time is displayed. -/
structure Time where
  ns : Int
  offset : Int
deriving DecidableEq, Repr

/-- A numeral is the UTC time that many nanoseconds after the zero time. -/
instance instOfNatTime (n : Nat) : OfNat Time n := ⟨⟨(n : Int), 0⟩⟩

/-- The method `t.IsZero()`: the instant is that of the zero time. -/
def Time.IsZero (t : Time) : Bool := decide (t.ns = 0)

/-- The method `t.Add(d)`. -/
def Time.Add (t : Time) (d : Int) : Time := ⟨t.ns + d, t.offset⟩

/-- The wall clock reading of `t` in its own zone, in nanoseconds. -/
def Time.wall (t : Time) : Int := t.ns + t.offset * 60 * 1000000000

/-- The `k` low decimal digits of `n` as bytes, most significant first. -/
def digitsFixed : Nat → Nat → List Nat
  | 0, _ => []
  | k + 1, n => (48 + n / 10 ^ k % 10) :: digitsFixed k n

/-- The number of decimal digits of `n` (`f` bounds the recursion; `f = n` suffices). -/
def digitCount : Nat → Nat → Nat
  | 0, _ => 1
  | f + 1, n => if n < 10 then 1 else 1 + digitCount f (n / 10)

/-- Go's `appendInt`: a sign for a negative value, then the decimal digits padded with
zeros to `width`. -/
def appendInt (x : Int) (width : Nat) : List Nat :=
  (if x < 0 then [45] else []) ++
    digitsFixed (max width (digitCount x.natAbs x.natAbs)) x.natAbs

/-- Go's `isLeap`. -/
def isLeap (year : Int) : Bool :=
  decide (year % 4 = 0) && (decide (year % 100 ≠ 0) || decide (year % 400 = 0))

/-- Month and day of the month of the day `yday` (from 0) of a year. -/
def monthDay (leap : Bool) (yday : Int) : Int × Int :=
  let feb : Int := if leap then 60 else 59
  if yday < 31 then (1, yday + 1)
  else if yday < feb then (2, yday - 30)
  else
    let k := yday - feb
    let mp := (5 * k + 2) / 153
    (mp + 3, k - (153 * mp + 2) / 5 + 1)

/-- The number of whole centuries in day `d0` of a 400-year cycle, at most 3. -/
def n100Of (d0 : Int) : Int := min (d0 / 36524) 3

/-- The day within its century. -/
def d1Of (d0 : Int) : Int := d0 - 36524 * n100Of d0

/-- The number of whole 4-year cycles within the century. -/
def n4Of (d0 : Int) : Int := d1Of d0 / 1461

/-- The day within its 4-year cycle. -/
def d2Of (d0 : Int) : Int := d1Of d0 % 1461

/-- The number of whole years within the 4-year cycle, at most 3. -/
def n1Of (d0 : Int) : Int := min (d2Of d0 / 365) 3

/-- The day of the year, from 0. -/
def ydayOf (d0 : Int) : Int := d2Of d0 - 365 * n1Of d0

/-- The year within the 400-year cycle, from 0. -/
def yoeOf (d0 : Int) : Int := 100 * n100Of d0 + 4 * n4Of d0 + n1Of d0

/-- The year of day `days`, day 0 being 0001-01-01. -/
def yearOf (days : Int) : Int := 400 * (days / 146097) + yoeOf (days % 146097) + 1

/-- The proleptic Gregorian date (year, month, day) of day `days`, day 0 being
0001-01-01, by 400-, 100-, 4- and 1-year cycles as in Go's `absDate`. -/
def civil (days : Int) : Int × Int × Int :=
  (yearOf days, monthDay (isLeap (yearOf days)) (ydayOf (days % 146097)))

/-- The day number of a date, day 0 being 0001-01-01. -/
def daysFromCivil (y m d : Int) : Int :=
  let y1 := if m ≤ 2 then y - 1 else y
  let mp := if m > 2 then m - 3 else m + 9
  (y1 / 400) * 146097 + ((y1 % 400) * 365 + (y1 % 400) / 4 - (y1 % 400) / 100 +
    ((153 * mp + 2) / 5 + d - 1)) - 306

/-- The digits of a fraction of `k` digits with trailing zeros removed. -/
def fracDigits : Nat → Nat → List Nat
  | 0, _ => []
  | k + 1, n => if n = 0 then [] else (48 + n / 10 ^ k) :: fracDigits k (n % 10 ^ k)

/-- The layout element `.999999999`: nothing for a whole second, else a point and the
nine digits of the nanoseconds with trailing zeros removed. -/
def fracText (nano : Nat) : List Nat :=
  if nano = 0 then [] else 46 :: fracDigits 9 nano

/-- The layout element `-07:00` for an offset in minutes. -/
def zoneText (offset : Int) : List Nat :=
  (if offset < 0 then [45] else [43]) ++
    appendInt (offset.natAbs / 60 : Nat) 2 ++ [58] ++ appendInt (offset.natAbs % 60 : Nat) 2

/-- The bytes of `t.Format("2006-01-02 15:04:05.999999999-07:00")`, the text the driver
binds for a `time.Time`. -/
def timeText (t : Time) : List Nat :=
  let sec := t.wall / 1000000000
  let nano := t.wall % 1000000000
  let days := sec / 86400
  let sod := sec % 86400
  let c := civil days
  appendInt c.1 4 ++ [45] ++ appendInt c.2.1 2 ++ [45] ++ appendInt c.2.2 2 ++ [32] ++
    appendInt (sod / 3600) 2 ++ [58] ++ appendInt (sod % 3600 / 60) 2 ++ [58] ++
    appendInt (sod % 60) 2 ++ fracText nano.toNat ++ zoneText t.offset

/-- The same text as a string. -/
def formatTime (t : Time) : String := String.mk ((timeText t).map Char.ofNat)

/-- The `time.Time` that JSON decoding gives for an RFC 3339 timestamp with the given
wall clock fields and zone offset in minutes. -/
def rfc3339 (y m d hh mi ss nano : Nat) (offset : Int) : Time :=
  ⟨((daysFromCivil y m d * 86400 + hh * 3600 + mi * 60 + ss) - offset * 60) * 1000000000 + nano,
   offset⟩

/-- The order of SQLite on text values (`memcmp`, then length): `a <= b`. -/
def bytesLE : List Nat → List Nat → Bool
  | [], _ => true
  | _ :: _, [] => false
  | a :: as, b :: bs => if a < b then true else if b < a then false else bytesLE as bs

/-- The instant 10000-01-01 00:00:00 UTC. -/
def maxInstant : Int := 315537897600000000000

/-- The timestamp is in UTC and its year is one of 0001 to 9999. -/
def Time.isUTC (t : Time) : Bool :=
  decide (t.offset = 0) && decide (0 ≤ t.ns) && decide (t.ns < maxInstant)

/-- A Go `error` value; `none` is `nil`. -/
abbrev GoError := Option String

def StatePending : String := "pending"

def StateProcessing : String := "processing"

def StateCompleted : String := "completed"

def StateFailed : String := "failed"

def StateDead : String := "dead"

/-- The in-memory `job.Job` struct. -/
structure Job where
  ID : String
  Command : String
  State : String
  Attempts : Int
  MaxRetries : Int
  CreatedAt : Time
  UpdatedAt : Time
  NextRunAt : Time
  LastError : String
deriving DecidableEq, Repr

/-- One row of the `jobs` table created by `migrate`. -/
structure Row where
  id : String
  command : String
  state : String
  attempts : Int
  max_retries : Int
  created_at : Time
  updated_at : Time
  next_run_at : Option Time
  last_error : String
deriving DecidableEq, Repr

/-- The `jobs` table, rows in insertion order. -/
abbrev Store := List Row

/-- Two's-complement wrap-around of a 64-bit signed integer. -/
def wrap64 (x : Int) : Int := (x + 2 ^ 63) % 2 ^ 64 - 2 ^ 63

/-- The constant `time.Second`, in nanoseconds. -/
def Second : Int := 1000000000

/-- The PRIMARY KEY constraint on `id`. -/
def idsUnique (s : Store) : Prop := (s.map Row.id).Nodup

instance idsUniqueDecidable (s : Store) : Decidable (idsUnique s) :=
  inferInstanceAs (Decidable (s.map Row.id).Nodup)

/-- An `UPDATE jobs SET ... WHERE ...`: every row matching `p` is replaced by `f` of it. -/
def dbUpdate (s : Store) (p : Row → Bool) (f : Row → Row) : Store :=
  s.map (fun r => if p r then f r else r)

/-- An `INSERT INTO jobs`: refused when the key is already present. -/
def dbInsert (s : Store) (r : Row) : Except String Store :=
  if s.any (fun x => decide (x.id = r.id)) then
    Except.error "UNIQUE constraint failed: jobs.id"
  else
    Except.ok (s ++ [r])

/-- The `row.Scan` of the nine columns: a NULL `next_run_at` leaves the zero time. -/
def scanRow (r : Row) : Job :=
  { ID := r.id, Command := r.command, State := r.state, Attempts := r.attempts,
    MaxRetries := r.max_retries, CreatedAt := r.created_at, UpdatedAt := r.updated_at,
    NextRunAt := r.next_run_at.getD 0, LastError := r.last_error }

/-- The row written for a job by INSERT: `next_run_at` is bound to a non-NULL time. -/
def rowOfJob (j : Job) : Row :=
  { id := j.ID, command := j.Command, state := j.State, attempts := j.Attempts,
    max_retries := j.MaxRetries, created_at := j.CreatedAt, updated_at := j.UpdatedAt,
    next_run_at := some j.NextRunAt, last_error := j.LastError }

/-- The seven columns `UpdateJob` sets, taken from `j`. -/
def applyUpdate (j : Job) (r : Row) : Row :=
  { r with command := j.Command, state := j.State, attempts := j.Attempts,
           max_retries := j.MaxRetries, updated_at := j.UpdatedAt,
           next_run_at := some j.NextRunAt, last_error := j.LastError }

/-- `SQLiteStorage.UpdateJob`; `now` is its `time.Now().UTC()`. -/
def UpdateJob (s : Store) (j : Job) (now : Time) : Store × Job × GoError :=
  let j1 := { j with UpdatedAt := now }
  (dbUpdate s (fun r => decide (r.id = j1.ID)) (applyUpdate j1), j1, none)

/-- The head of `SaveJob`, before its INSERT: the identifier, the state and `CreatedAt` are
filled in when empty, and `UpdatedAt` is set. -/
def prepareJob (j : Job) (uuid : String) (now : Time) : Job :=
  let j1 := if j.ID = "" then { j with ID := uuid } else j
  let j2 := if j1.State = "" then { j1 with State := StatePending } else j1
  let j3 := if j2.CreatedAt.IsZero then { j2 with CreatedAt := now } else j2
  { j3 with UpdatedAt := now }

/-- `SQLiteStorage.SaveJob`; `uuid` is the value of `uuid.New().String()`, `now` the clock
read of `SaveJob` and `now2` the clock read of the `UpdateJob` it may fall back to. -/
def SaveJob (s : Store) (j : Job) (uuid : String) (now now2 : Time) : Store × Job × GoError :=
  let j4 := prepareJob j uuid now
  match dbInsert s (rowOfJob j4) with
  | Except.error _ => UpdateJob s j4 now2
  | Except.ok s1 => (s1, j4, none)

/-- The WHERE clause of the claim query:
`state = 'pending' AND (next_run_at IS NULL OR next_run_at <= now)`, the comparison being
that of the bound texts. -/
def eligible (now : Time) (r : Row) : Bool :=
  decide (r.state = StatePending) &&
    (match r.next_run_at with
     | none => true
     | some t => bytesLE (timeText t) (timeText now))

/-- The spec's wording of the same condition, with `<=` read as "not after": the job is
pending and its `next_run_at` is null or an instant not later than `now`. -/
def dueAt (now : Time) (r : Row) : Bool :=
  decide (r.state = StatePending) &&
    (match r.next_run_at with
     | none => true
     | some t => decide (t.ns ≤ now.ns))

/-- The clause `ORDER BY created_at LIMIT 1`: a row whose `created_at` text is least.
Among rows of equal `created_at` SQLite is free to return any; the model returns the
earliest inserted one, and no theorem below depends on that choice. -/
def orderByCreatedAtLimit1 : List Row → Option Row
  | [] => none
  | r :: rs =>
    match orderByCreatedAtLimit1 rs with
    | none => some r
    | some b =>
      if bytesLE (timeText r.created_at) (timeText b.created_at) then some r else some b

/-- `SQLiteStorage.ClaimNextPending` as one transaction; `tUpd` is the clock read of the
UPDATE and `tRet` the one made after the commit.  A transaction that returns early is
rolled back, which leaves the table as it was. -/
def ClaimNextPending (s : Store) (now tUpd tRet : Time) : Store × Option Job × GoError :=
  match orderByCreatedAtLimit1 (s.filter (eligible now)) with
  | none => (s, none, none)
  | some r =>
    let j := scanRow r
    let p := fun x : Row => decide (x.id = j.ID) && decide (x.state = StatePending)
    if s.countP p = 0 then (s, none, none)
    else
      (dbUpdate s p (fun x => { x with state := StateProcessing, updated_at := tUpd }),
       some { j with State := StateProcessing, UpdatedAt := tRet }, none)

/-- `SQLiteStorage.ListByState`. -/
def ListByState (s : Store) (state : String) : List Job × GoError :=
  ((s.filter (fun r => decide (r.state = state))).map scanRow, none)

/-- `SQLiteStorage.MoveToDead`. -/
def MoveToDead (s : Store) (j : Job) (now : Time) : Store × Job × GoError :=
  UpdateJob s { j with State := StateDead } now

/-- `SQLiteStorage.GetJobByID`. -/
def GetJobByID (s : Store) (id : String) : Option Job × GoError :=
  match s.find? (fun r => decide (r.id = id)) with
  | none => (none, some "job not found")
  | some r => (some (scanRow r), none)

/-- `SQLiteStorage.RetryJob`; `now` is its `time.Now().UTC()`. -/
def RetryJob (s : Store) (id : String) (now : Time) : Store × GoError :=
  (dbUpdate s (fun r => decide (r.id = id))
    (fun r => { r with state := StatePending, attempts := 0, updated_at := now,
                       next_run_at := some now }), none)

/-- The worker's `Config`. -/
structure Config where
  BaseBackoff : Int
  MaxRetries : Int
deriving DecidableEq, Repr

/-- The loop `for i := 0; i < n; i++ { pow *= base }` run from the accumulator `pow`. -/
def powLoop (base : Int) : Nat → Int → Int
  | 0, pow => pow
  | n + 1, pow => powLoop base n (wrap64 (pow * base))

/-- The base used by `runJob`: the configured one, or 2 when that is `<= 1`. -/
def effectiveBase (cfg : Config) : Int :=
  if cfg.BaseBackoff ≤ 1 then 2 else cfg.BaseBackoff

/-- The value of `wait` in `runJob`, in nanoseconds, for the attempt count after the
increment: `time.Duration(pow) * time.Second` with `pow` from the loop. -/
def backoffWait (cfg : Config) (attempts : Int) : Int :=
  wrap64 (powLoop (effectiveBase cfg) attempts.toNat 1 * Second)

/-- `Worker.runJob`.  `err` is the result of `cmd.Run()` (`none` for exit status zero,
`some e` with `e` the text of `err.Error()` otherwise), `now` the clock read for
`NextRunAt` and `tUpd` the clock read inside `UpdateJob`. -/
def runJob (cfg : Config) (s : Store) (j : Job) (err : GoError) (now tUpd : Time) :
    Store × Job :=
  match err with
  | some e =>
    let j1 : Job := { j with Attempts := wrap64 (j.Attempts + 1), LastError := e }
    let maxRetries : Int := if j1.MaxRetries = 0 then cfg.MaxRetries else j1.MaxRetries
    if j1.Attempts ≥ maxRetries then
      let r := UpdateJob s { j1 with State := StateDead } tUpd
      (r.1, r.2.1)
    else
      let j2 : Job := { j1 with State := StatePending }
      let j3 : Job := { j2 with NextRunAt := now.Add (backoffWait cfg j2.Attempts) }
      let r := UpdateJob s j3 tUpd
      (r.1, r.2.1)
  | none =>
    let r := UpdateJob s { j with State := StateCompleted } tUpd
    (r.1, r.2.1)

/-- The store together with the jobs the workers hold between a claim and the update
that follows it. -/
structure Sys where
  store : Store
  held : List Job

/-- One step of the worker pool: a worker's `ClaimNextPending` (it keeps a returned job),
or the `runJob` of a worker on the job it holds. -/
inductive Step (cfg : Config) : Sys → Sys → Prop
  | claim (σ : Sys) (now tUpd tRet : Time) (j : Job) :
      (ClaimNextPending σ.store now tUpd tRet).2.1 = some j →
      Step cfg σ ⟨(ClaimNextPending σ.store now tUpd tRet).1, j :: σ.held⟩
  | idle (σ : Sys) (now tUpd tRet : Time) :
      (ClaimNextPending σ.store now tUpd tRet).2.1 = none →
      Step cfg σ ⟨(ClaimNextPending σ.store now tUpd tRet).1, σ.held⟩
  | run (σ : Sys) (j : Job) (err : GoError) (now tUpd : Time) :
      j ∈ σ.held →
      Step cfg σ ⟨(runJob cfg σ.store j err now tUpd).1, σ.held.erase j⟩

/-- One later operation on the store that does not name the job `id`: a step of the
worker pool, or a `SaveJob`, `RetryJob`, `UpdateJob` or `MoveToDead` under another
identifier. -/
inductive LaterStep (cfg : Config) (id : String) : Sys → Sys → Prop
  | worker {σ τ : Sys} : Step cfg σ τ → LaterStep cfg id σ τ
  | save (σ : Sys) (j : Job) (uuid : String) (now now2 : Time) :
      (prepareJob j uuid now).ID ≠ id →
      LaterStep cfg id σ ⟨(SaveJob σ.store j uuid now now2).1, σ.held⟩
  | retry (σ : Sys) (id2 : String) (now : Time) :
      id2 ≠ id →
      LaterStep cfg id σ ⟨(RetryJob σ.store id2 now).1, σ.held⟩
  | update (σ : Sys) (j : Job) (now : Time) :
      j.ID ≠ id →
      LaterStep cfg id σ ⟨(UpdateJob σ.store j now).1, σ.held⟩
  | dead (σ : Sys) (j : Job) (now : Time) :
      j.ID ≠ id →
      LaterStep cfg id σ ⟨(MoveToDead σ.store j now).1, σ.held⟩

/-- The states reached from `σ` by such operations. -/
def LaterReachable (cfg : Config) (id : String) (σ τ : Sys) : Prop :=
  Relation.ReflTransGen (LaterStep cfg id) σ τ

/-- The states reachable from `σ` by steps of the worker pool. -/
def Reachable (cfg : Config) (σ τ : Sys) : Prop :=
  Relation.ReflTransGen (Step cfg) σ τ

/-- The moves of the job state machine: a claim, or the outcome of an execution. -/
def Transition (a b : String) : Prop :=
  (a = StatePending ∧ b = StateProcessing) ∨
  (a = StateProcessing ∧ (b = StateCompleted ∨ b = StatePending ∨ b = StateDead))

/-- A row with `updated_at` blanked, for comparing stores up to that column. -/
def eraseUpdatedAt (r : Row) : Row := { r with updated_at := 0 }

/-- The invariant of the worker pool: keys are unique, no two workers hold a job under the
same identifier, and the row of every held job is in state processing. -/
def Inv (σ : Sys) : Prop :=
  idsUnique σ.store ∧ (σ.held.map Job.ID).Nodup ∧
  ∀ j ∈ σ.held, ∀ r ∈ σ.store, r.id = j.ID → r.state = StateProcessing

/-- The row `x` holds the values of `j` in the columns other than the key and the two
timestamps `created_at` and `updated_at`. -/
def Carries (j : Job) (x : Row) : Prop :=
  x.command = j.Command ∧ x.state = j.State ∧ x.attempts = j.Attempts ∧
  x.max_retries = j.MaxRetries ∧ x.next_run_at = some j.NextRunAt ∧
  x.last_error = j.LastError

/-! ## Sample data -/

/-- A row with the given key, state, creation time and `next_run_at`. -/
def sampleRow (id state : String) (created : Time) (next : Option Time) : Row :=
  { id := id, command := "echo hi", state := state, attempts := 0, max_retries := 2,
    created_at := created, updated_at := created, next_run_at := next, last_error := "" }

/-- Two pending rows (`b` is the older one), a pending row not yet due and a dead row. -/
def sampleStore : Store :=
  [sampleRow "a" StatePending 20 none, sampleRow "b" StatePending 10 (some 5),
   sampleRow "c" StatePending 1 (some 900), sampleRow "d" StateDead 0 (some 0)]

/-- A store with nothing to claim at time 100. -/
def idleStore : Store :=
  [sampleRow "c" StatePending 1 (some 900), sampleRow "d" StateDead 0 (some 0),
   sampleRow "e" StateProcessing 2 none, sampleRow "f" StateCompleted 3 (some 0)]

/-- A store with one pending row among rows in other states. -/
def onePendingStore : Store :=
  [sampleRow "d" StateDead 0 (some 0), sampleRow "a" StatePending 20 none,
   sampleRow "f" StateCompleted 3 (some 0)]

/-- A job value under the key `a` with a command, a creation time and counters that differ
from those of the stored row `a`. -/
def otherJob : Job :=
  { ID := "a", Command := "echo bye", State := StateCompleted, Attempts := 4,
    MaxRetries := 7, CreatedAt := 99, UpdatedAt := 0, NextRunAt := 33, LastError := "boom" }

/-- The configuration of `config.Default()`: base 2, three retries. -/
def defaultConfig : Config := ⟨2, 3⟩

/-- A configuration with `backoff_base` 100000. -/
def wideConfig : Config := ⟨100000, 3⟩

/-- A job as a worker holds it after a claim, with the given attempts and max_retries. -/
def heldJob (attempts maxRetries : Int) : Job :=
  { ID := "a", Command := "exit 2", State := StateProcessing, Attempts := attempts,
    MaxRetries := maxRetries, CreatedAt := 20, UpdatedAt := 21, NextRunAt := 0,
    LastError := "" }

/-- The store in which `heldJob attempts maxRetries` is the claimed row. -/
def heldStore (attempts maxRetries : Int) : Store :=
  [{ id := "a", command := "exit 2", state := StateProcessing, attempts := attempts,
     max_retries := maxRetries, created_at := 20, updated_at := 21, next_run_at := some 0,
     last_error := "" },
   sampleRow "d" StateDead 0 (some 0)]

/-- A job as `enqueue --command` submits it, before `SaveJob`. -/
def newJob (command : String) (maxRetries : Int) : Job :=
  { ID := "", Command := command, State := "", Attempts := 0, MaxRetries := maxRetries,
    CreatedAt := 0, UpdatedAt := 0, NextRunAt := 0, LastError := "" }

/-- The job a claim at time 100 returns from `sampleStore`: the row `b`, as read. -/
def claimedB : Job :=
  { ID := "b", Command := "echo hi", State := StateProcessing, Attempts := 0,
    MaxRetries := 2, CreatedAt := 10, UpdatedAt := 102, NextRunAt := 5, LastError := "" }

/-- A store in which the job of `enqueue --command "echo hi"` has just been saved. -/
def freshStore : Store := (SaveJob idleStore (newJob "echo hi" 1) "u1" 100 101).1

/-- The job a claim at time 200 returns from `freshStore`. -/
def claimedFresh : Job :=
  { ID := "u1", Command := "echo hi", State := StateProcessing, Attempts := 0,
    MaxRetries := 1, CreatedAt := 100, UpdatedAt := 202, NextRunAt := 0, LastError := "" }

/-- A job as `enqueue --job` decodes it from JSON, with the given identifier, `created_at`
and `next_run_at`; `max_retries` is filled from the configuration. -/
def jsonJob (id : String) (created next : Time) : Job :=
  { ID := id, Command := "true", State := "", Attempts := 0, MaxRetries := 3,
    CreatedAt := created, UpdatedAt := 0, NextRunAt := next, LastError := "" }

/-- The store after the claim of `claimedFresh` and its successful execution. -/
def settledStore : Store :=
  (runJob defaultConfig (ClaimNextPending freshStore 200 201 202).1 claimedFresh
    none 300 301).1

/-! ## The text of a timestamp and its order -/

/-- Within a 400-year cycle the year is one of 400 and the day of the year at most 365. -/
theorem cyc_bounds (d0 : Int) (h0 : 0 ≤ d0) (h1 : d0 < 146097) :
    0 ≤ yoeOf d0 ∧ yoeOf d0 ≤ 399 ∧ 0 ≤ ydayOf d0 ∧ ydayOf d0 ≤ 365 := by
  unfold yoeOf ydayOf n1Of d2Of n4Of d1Of n100Of
  omega

/-- Within a 400-year cycle a later day has a later year, or the same year and a later day
of the year. -/
theorem cyc_mono (a b : Int) (h0 : 0 ≤ a) (hab : a < b) (h1 : b < 146097) :
    yoeOf a < yoeOf b ∨ (yoeOf a = yoeOf b ∧ ydayOf a < ydayOf b) := by
  unfold yoeOf ydayOf n1Of d2Of n4Of d1Of n100Of
  omega

theorem monthDay_bounds (leap : Bool) (y : Int) (h0 : 0 ≤ y) (h1 : y ≤ 365) :
    1 ≤ (monthDay leap y).1 ∧ (monthDay leap y).1 ≤ 13 ∧
    1 ≤ (monthDay leap y).2 ∧ (monthDay leap y).2 ≤ 31 := by
  unfold monthDay
  cases leap <;> simp only [Bool.false_eq_true, if_false, if_true] <;> split_ifs <;>
    dsimp only <;> omega

theorem monthDay_mono (leap : Bool) (a b : Int) (hab : a < b) :
    (monthDay leap a).1 < (monthDay leap b).1 ∨
      ((monthDay leap a).1 = (monthDay leap b).1 ∧ (monthDay leap a).2 < (monthDay leap b).2) := by
  unfold monthDay
  cases leap <;> simp only [Bool.false_eq_true, if_false, if_true] <;> split_ifs <;>
    dsimp only <;> omega

theorem civil_bounds (n : Int) (h0 : 0 ≤ n) (h1 : n < 3652059) :
    1 ≤ (civil n).1 ∧ (civil n).1 ≤ 9999 ∧ 1 ≤ (civil n).2.1 ∧ (civil n).2.1 ≤ 13 ∧
    1 ≤ (civil n).2.2 ∧ (civil n).2.2 ≤ 31 := by
  have hc := cyc_bounds (n % 146097) (by omega) (by omega)
  have hm := monthDay_bounds (isLeap (yearOf n)) (ydayOf (n % 146097)) hc.2.2.1 hc.2.2.2
  have hy : 1 ≤ yearOf n ∧ yearOf n ≤ 9999 := by
    unfold yearOf
    unfold yoeOf ydayOf n1Of d2Of n4Of d1Of n100Of at hc
    unfold yoeOf n1Of d2Of n4Of d1Of n100Of
    omega
  exact ⟨hy.1, hy.2, hm⟩

/-- A later day has a later date, in the order year, month, day. -/
theorem civil_mono (a b : Int) (hab : a < b) :
    (civil a).1 < (civil b).1 ∨ ((civil a).1 = (civil b).1 ∧
      ((civil a).2.1 < (civil b).2.1 ∨
        ((civil a).2.1 = (civil b).2.1 ∧ (civil a).2.2 < (civil b).2.2))) := by
  have hca := cyc_bounds (a % 146097) (by omega) (by omega)
  have hcb := cyc_bounds (b % 146097) (by omega) (by omega)
  by_cases hq : a / 146097 = b / 146097
  · have hlt : a % 146097 < b % 146097 := by omega
    rcases cyc_mono (a % 146097) (b % 146097) (by omega) hlt (by omega) with h | ⟨h, h2⟩
    · left
      show yearOf a < yearOf b
      unfold yearOf
      omega
    · right
      have hy : yearOf a = yearOf b := by
        unfold yearOf
        omega
      refine ⟨hy, ?_⟩
      have hm := monthDay_mono (isLeap (yearOf b)) _ _ h2
      have ea : (civil a).2 = monthDay (isLeap (yearOf b)) (ydayOf (a % 146097)) := by
        rw [← hy]; rfl
      have eb : (civil b).2 = monthDay (isLeap (yearOf b)) (ydayOf (b % 146097)) := rfl
      rw [ea, eb]
      exact hm
  · left
    show yearOf a < yearOf b
    unfold yearOf
    omega

theorem bytesLE_refl (a : List Nat) : bytesLE a a = true := by
  induction a with
  | nil => rfl
  | cons x xs ih => simp [bytesLE, ih]

theorem bytesLE_cons (a b : Nat) (as bs : List Nat) :
    bytesLE (a :: as) (b :: bs) = true ↔ a < b ∨ (a = b ∧ bytesLE as bs = true) := by
  simp only [bytesLE]
  split_ifs with h1 h2
  · simp [h1]
  · constructor
    · intro h; simp at h
    · rintro (h | ⟨h, _⟩) <;> omega
  · have : a = b := by omega
    simp [this]

theorem bytesLE_digitsFixed_mod (k a b : Nat) (ra rb : List Nat) :
    bytesLE (digitsFixed k a ++ ra) (digitsFixed k b ++ rb) = true ↔
      a % 10 ^ k < b % 10 ^ k ∨ (a % 10 ^ k = b % 10 ^ k ∧ bytesLE ra rb = true) := by
  induction k with
  | zero => simp [digitsFixed, Nat.mod_one]
  | succ k ih =>
    simp only [digitsFixed, List.cons_append]
    rw [bytesLE_cons, ih, Nat.mod_pow_succ, Nat.mod_pow_succ]
    have ha : a % 10 ^ k < 10 ^ k := Nat.mod_lt _ (by positivity)
    have hb : b % 10 ^ k < 10 ^ k := Nat.mod_lt _ (by positivity)
    generalize a % 10 ^ k = xa at *
    generalize b % 10 ^ k = xb at *
    generalize a / 10 ^ k % 10 = da at *
    generalize b / 10 ^ k % 10 = db at *
    generalize 10 ^ k = P at *
    rcases Nat.lt_trichotomy da db with h | h | h
    · have hm : P * (da + 1) ≤ P * db := Nat.mul_le_mul_left P h
      have he : P * (da + 1) = P * da + P := by ring
      constructor
      · intro _; left; omega
      · intro _; left; omega
    · subst h
      constructor
      · rintro (h | ⟨_, h⟩)
        · omega
        · rcases h with h | ⟨h, h2⟩
          · left; omega
          · right; exact ⟨by omega, h2⟩
      · rintro (h | ⟨h, h2⟩)
        · right; exact ⟨rfl, Or.inl (by omega)⟩
        · right; exact ⟨rfl, Or.inr ⟨by omega, h2⟩⟩
    · have hm : P * (db + 1) ≤ P * da := Nat.mul_le_mul_left P h
      have he : P * (db + 1) = P * db + P := by ring
      constructor
      · rintro (h' | ⟨h', _⟩) <;> omega
      · rintro (h' | ⟨h', _⟩) <;> omega

/-- Numbers of `k` digits compare as their digit texts do; on equal numbers the rest of the
text decides. -/
theorem bytesLE_digitsFixed (k a b : Nat) (ra rb : List Nat) (ha : a < 10 ^ k)
    (hb : b < 10 ^ k) :
    bytesLE (digitsFixed k a ++ ra) (digitsFixed k b ++ rb) = true ↔
      a < b ∨ (a = b ∧ bytesLE ra rb = true) := by
  rw [bytesLE_digitsFixed_mod, Nat.mod_eq_of_lt ha, Nat.mod_eq_of_lt hb]

theorem digitCount_le (f n k : Nat) (h : n < 10 ^ (k + 1)) : digitCount f n ≤ k + 1 := by
  induction f generalizing n k with
  | zero => simp [digitCount]
  | succ f ih =>
    simp only [digitCount]
    split_ifs with h10
    · omega
    · cases k with
      | zero => simp at h; omega
      | succ k =>
        have : n / 10 < 10 ^ (k + 1) := by
          rw [Nat.div_lt_iff_lt_mul (by norm_num)]
          rw [pow_succ] at h
          exact h
        have := ih (n / 10) k this
        omega

theorem appendInt_of_lt (x : Int) (w : Nat) (h0 : 0 ≤ x) (h1 : x.toNat < 10 ^ (w + 1)) :
    appendInt x (w + 1) = digitsFixed (w + 1) x.toNat := by
  unfold appendInt
  have hn : x.natAbs = x.toNat := by omega
  rw [hn, if_neg (by omega)]
  have := digitCount_le x.toNat x.toNat w h1
  rw [max_eq_left this]
  rfl

theorem bytesLE_fracDigits (k a b : Nat) (z0 : Nat) (zr : List Nat) (hz : z0 < 48)
    (ha : a < 10 ^ k) (hb : b < 10 ^ k) :
    bytesLE (fracDigits k a ++ z0 :: zr) (fracDigits k b ++ z0 :: zr) = true ↔ a ≤ b := by
  induction k generalizing a b with
  | zero =>
    simp at ha hb
    subst ha; subst hb
    simp [fracDigits, bytesLE_refl]
  | succ k ih =>
    simp only [fracDigits]
    have hP : 0 < 10 ^ k := by positivity
    by_cases ha0 : a = 0
    · by_cases hb0 : b = 0
      · simp [ha0, hb0, bytesLE_refl]
      · simp only [ha0, hb0, if_true, if_false, List.nil_append, List.cons_append]
        rw [bytesLE_cons]
        generalize b / 10 ^ k = q
        constructor
        · intro _; omega
        · intro _; left; omega
    · by_cases hb0 : b = 0
      · simp only [ha0, hb0, if_true, if_false, List.nil_append, List.cons_append]
        rw [bytesLE_cons]
        generalize a / 10 ^ k = q
        constructor
        · rintro (h | ⟨h, _⟩) <;> omega
        · intro h; omega
      · simp only [ha0, hb0, if_false, List.cons_append]
        rw [bytesLE_cons, ih _ _ (Nat.mod_lt _ hP) (Nat.mod_lt _ hP)]
        have ea := Nat.div_add_mod a (10 ^ k)
        have eb := Nat.div_add_mod b (10 ^ k)
        have ma : a % 10 ^ k < 10 ^ k := Nat.mod_lt _ hP
        have mb : b % 10 ^ k < 10 ^ k := Nat.mod_lt _ hP
        generalize a % 10 ^ k = xa at *
        generalize b % 10 ^ k = xb at *
        generalize a / 10 ^ k = qa at *
        generalize b / 10 ^ k = qb at *
        generalize 10 ^ k = P at *
        rcases Nat.lt_trichotomy qa qb with h | h | h
        · have hm : P * (qa + 1) ≤ P * qb := Nat.mul_le_mul_left P h
          have he : P * (qa + 1) = P * qa + P := by ring
          constructor
          · intro _; omega
          · intro _; left; omega
        · subst h
          constructor
          · rintro (h | ⟨_, h⟩) <;> omega
          · intro h; right; exact ⟨rfl, by omega⟩
        · have hm : P * (qb + 1) ≤ P * qa := Nat.mul_le_mul_left P h
          have he : P * (qb + 1) = P * qb + P := by ring
          constructor
          · rintro (h' | ⟨h', _⟩) <;> omega
          · intro h'; omega

/-- Before a zone sign, fractions of a second compare as their texts do, the whole second
(no text) first. -/
theorem bytesLE_fracText (a b : Nat) (z0 : Nat) (zr : List Nat) (hz : z0 < 46)
    (ha : a < 10 ^ 9) (hb : b < 10 ^ 9) :
    bytesLE (fracText a ++ z0 :: zr) (fracText b ++ z0 :: zr) = true ↔ a ≤ b := by
  unfold fracText
  by_cases ha0 : a = 0
  · by_cases hb0 : b = 0
    · simp [ha0, hb0, bytesLE_refl]
    · simp only [ha0, hb0, if_true, if_false, List.nil_append, List.cons_append]
      rw [bytesLE_cons]
      constructor
      · intro _; omega
      · intro _; left; omega
  · by_cases hb0 : b = 0
    · simp only [ha0, hb0, if_true, if_false, List.nil_append, List.cons_append]
      rw [bytesLE_cons]
      constructor
      · rintro (h | ⟨h, _⟩) <;> omega
      · intro h; omega
    · simp only [ha0, hb0, if_false, List.cons_append]
      rw [bytesLE_cons, bytesLE_fracDigits 9 a b z0 zr (by omega) ha hb]
      constructor
      · rintro (h | ⟨_, h⟩)
        · omega
        · exact h
      · intro h; right; exact ⟨rfl, h⟩

theorem isUTC_iff (t : Time) :
    t.isUTC = true ↔ t.offset = 0 ∧ 0 ≤ t.ns ∧ t.ns < maxInstant := by
  simp [Time.isUTC, and_assoc]

theorem zoneText_zero : zoneText 0 = [43, 48, 48, 58, 48, 48] := by decide

/-- The shape of the text of a UTC timestamp with a year of four digits. -/
theorem timeText_utc (t : Time) (h : t.isUTC = true) :
    timeText t =
      digitsFixed 4 (civil (t.ns / 1000000000 / 86400)).1.toNat ++ 45 ::
      (digitsFixed 2 (civil (t.ns / 1000000000 / 86400)).2.1.toNat ++ 45 ::
      (digitsFixed 2 (civil (t.ns / 1000000000 / 86400)).2.2.toNat ++ 32 ::
      (digitsFixed 2 (t.ns / 1000000000 % 86400 / 3600).toNat ++ 58 ::
      (digitsFixed 2 (t.ns / 1000000000 % 86400 % 3600 / 60).toNat ++ 58 ::
      (digitsFixed 2 (t.ns / 1000000000 % 86400 % 60).toNat ++
      (fracText (t.ns % 1000000000).toNat ++ 43 :: [48, 48, 58, 48, 48])))))) := by
  rw [isUTC_iff] at h
  obtain ⟨hoff, h0, h1⟩ := h
  unfold maxInstant at h1
  have hw : t.wall = t.ns := by simp [Time.wall, hoff]
  have hc := civil_bounds (t.ns / 1000000000 / 86400) (by omega) (by omega)
  unfold timeText
  simp only [hw, hoff, zoneText_zero]
  rw [appendInt_of_lt _ 3 (by omega) (by norm_num; omega),
      appendInt_of_lt _ 1 (by omega) (by norm_num; omega),
      appendInt_of_lt _ 1 (by omega) (by norm_num; omega),
      appendInt_of_lt _ 1 (by omega) (by norm_num; omega),
      appendInt_of_lt _ 1 (by omega) (by norm_num; omega),
      appendInt_of_lt _ 1 (by omega) (by norm_num; omega)]
  simp only [List.append_assoc, List.singleton_append, List.cons_append, List.nil_append]

theorem tod_lex (sa sb : Int) (na nb : Nat) (ha0 : 0 ≤ sa) (ha1 : sa < 86400)
    (hb0 : 0 ≤ sb) (hb1 : sb < 86400) :
    ((sa / 3600).toNat < (sb / 3600).toNat ∨ ((sa / 3600).toNat = (sb / 3600).toNat ∧
      ((sa % 3600 / 60).toNat < (sb % 3600 / 60).toNat ∨
        ((sa % 3600 / 60).toNat = (sb % 3600 / 60).toNat ∧
          ((sa % 60).toNat < (sb % 60).toNat ∨
            ((sa % 60).toNat = (sb % 60).toNat ∧ na ≤ nb)))))) ↔
      (sa < sb ∨ (sa = sb ∧ na ≤ nb)) := by
  omega

theorem lex3_toNat (y1 m1 d1 y2 m2 d2 : Int) (P Q : Prop)
    (h1 : 0 ≤ y1 ∧ 0 ≤ m1 ∧ 0 ≤ d1) (h2 : 0 ≤ y2 ∧ 0 ≤ m2 ∧ 0 ≤ d2)
    (hlt : y1 < y2 ∨ (y1 = y2 ∧ (m1 < m2 ∨ (m1 = m2 ∧ d1 < d2)))) (hQ : Q) :
    (y1.toNat < y2.toNat ∨ (y1.toNat = y2.toNat ∧ (m1.toNat < m2.toNat ∨
      (m1.toNat = m2.toNat ∧ (d1.toNat < d2.toNat ∨ (d1.toNat = d2.toNat ∧ P)))))) ↔ Q := by
  constructor
  · intro _; exact hQ
  · intro _; omega

theorem lex3_toNat_gt (y1 m1 d1 y2 m2 d2 : Int) (P Q : Prop)
    (h1 : 0 ≤ y1 ∧ 0 ≤ m1 ∧ 0 ≤ d1) (h2 : 0 ≤ y2 ∧ 0 ≤ m2 ∧ 0 ≤ d2)
    (hlt : y2 < y1 ∨ (y2 = y1 ∧ (m2 < m1 ∨ (m2 = m1 ∧ d2 < d1)))) (hQ : ¬ Q) :
    (y1.toNat < y2.toNat ∨ (y1.toNat = y2.toNat ∧ (m1.toNat < m2.toNat ∨
      (m1.toNat = m2.toNat ∧ (d1.toNat < d2.toNat ∨ (d1.toNat = d2.toNat ∧ P)))))) ↔ Q := by
  constructor
  · intro h; exfalso; omega
  · intro h; exact absurd h hQ

/-- For UTC timestamps with years 0001 to 9999 the byte order of the text is the order of
the instants. -/
theorem bytesLE_timeText_utc (a b : Time) (ha : a.isUTC = true) (hb : b.isUTC = true) :
    bytesLE (timeText a) (timeText b) = true ↔ a.ns ≤ b.ns := by
  rw [timeText_utc a ha, timeText_utc b hb]
  rw [isUTC_iff] at ha hb
  obtain ⟨_, ha0, ha1⟩ := ha
  obtain ⟨_, hb0, hb1⟩ := hb
  unfold maxInstant at ha1 hb1
  have hca := civil_bounds (a.ns / 1000000000 / 86400) (by omega) (by omega)
  have hcb := civil_bounds (b.ns / 1000000000 / 86400) (by omega) (by omega)
  rw [bytesLE_digitsFixed 4 _ _ _ _ (by norm_num; omega) (by norm_num; omega), bytesLE_cons,
    bytesLE_digitsFixed 2 _ _ _ _ (by norm_num; omega) (by norm_num; omega), bytesLE_cons,
    bytesLE_digitsFixed 2 _ _ _ _ (by norm_num; omega) (by norm_num; omega), bytesLE_cons,
    bytesLE_digitsFixed 2 _ _ _ _ (by norm_num; omega) (by norm_num; omega), bytesLE_cons,
    bytesLE_digitsFixed 2 _ _ _ _ (by norm_num; omega) (by norm_num; omega), bytesLE_cons,
    bytesLE_digitsFixed 2 _ _ _ _ (by norm_num; omega) (by norm_num; omega),
    bytesLE_fracText _ _ 43 _ (by norm_num) (by norm_num; omega) (by norm_num; omega)]
  simp only [lt_irrefl, false_or, true_and]
  rw [tod_lex (a.ns / 1000000000 % 86400) (b.ns / 1000000000 % 86400) _ _
    (by omega) (by omega) (by omega) (by omega)]
  rcases lt_trichotomy (a.ns / 1000000000 / 86400) (b.ns / 1000000000 / 86400) with h | h | h
  · exact lex3_toNat _ _ _ _ _ _ _ _ ⟨by omega, by omega, by omega⟩
      ⟨by omega, by omega, by omega⟩
      (civil_mono _ _ h) (by omega)
  · rw [h]
    constructor
    · rintro (h' | ⟨_, h' | ⟨_, h' | ⟨_, h'⟩⟩⟩)
      · omega
      · omega
      · omega
      · omega
    · intro h'
      right; refine ⟨rfl, ?_⟩
      right; refine ⟨rfl, ?_⟩
      right; refine ⟨rfl, ?_⟩
      omega
  · exact lex3_toNat_gt _ _ _ _ _ _ _ _ ⟨by omega, by omega, by omega⟩
      ⟨by omega, by omega, by omega⟩
      (civil_mono _ _ h) (by omega)

/-! ## Lemmas on the table primitives -/

theorem dbUpdate_ids (s : Store) (p : Row → Bool) (f : Row → Row)
    (hf : ∀ r, (f r).id = r.id) : (dbUpdate s p f).map Row.id = s.map Row.id := by
  induction s with
  | nil => rfl
  | cons r rs ih =>
    simp only [dbUpdate, List.map_cons] at ih ⊢
    rw [ih]
    by_cases h : p r = true
    · simp [h, hf]
    · simp [h]

theorem mem_dbUpdate {s : Store} {p : Row → Bool} {f : Row → Row} {x : Row} :
    x ∈ dbUpdate s p f ↔ ∃ r ∈ s, x = if p r then f r else r := by
  simp only [dbUpdate, List.mem_map]
  constructor
  · rintro ⟨r, hr, rfl⟩
    exact ⟨r, hr, rfl⟩
  · rintro ⟨r, hr, rfl⟩
    exact ⟨r, hr, rfl⟩

theorem dbUpdate_of_forall_not (s : Store) (p : Row → Bool) (f : Row → Row)
    (h : ∀ r ∈ s, p r = false) : dbUpdate s p f = s := by
  induction s with
  | nil => rfl
  | cons r rs ih =>
    have h1 : p r = false := h r (List.mem_cons_self _ _)
    have h2 : dbUpdate rs p f = rs := ih (fun x hx => h x (List.mem_cons_of_mem _ hx))
    simp only [dbUpdate, List.map_cons] at h2 ⊢
    rw [h2]
    simp [h1]

theorem mem_of_mem_dbUpdate_not {s : Store} {p : Row → Bool} {f : Row → Row} {x : Row}
    (hx : x ∈ s) (hp : p x = false) : x ∈ dbUpdate s p f := by
  rw [mem_dbUpdate]
  exact ⟨x, hx, by simp [hp]⟩

theorem mem_dbUpdate_other {s : Store} {p : Row → Bool} {f : Row → Row} {x : Row} {k : String}
    (hf : ∀ r, (f r).id = r.id) (hp : ∀ r, p r = true → r.id = k) (hx : x.id ≠ k) :
    x ∈ dbUpdate s p f ↔ x ∈ s := by
  rw [mem_dbUpdate]
  constructor
  · rintro ⟨y, hy, hxy⟩
    by_cases hpy : p y = true
    · rw [if_pos hpy] at hxy
      exact absurd (by rw [hxy, hf]; exact hp y hpy) hx
    · rw [if_neg hpy] at hxy
      rw [hxy]; exact hy
  · intro hxs
    have hpx : ¬ p x = true := fun h => hx (hp x h)
    exact ⟨x, hxs, by rw [if_neg hpx]⟩

theorem mem_dbUpdate_key_other {s : Store} {k : String} {f : Row → Row} {x : Row}
    (hf : ∀ r, (f r).id = r.id) (hx : x.id ≠ k) :
    x ∈ dbUpdate s (fun r => decide (r.id = k)) f ↔ x ∈ s :=
  mem_dbUpdate_other hf (fun r h => by simpa using h) hx

theorem mem_dbUpdate_same {s : Store} {k : String} {f : Row → Row} {x : Row}
    (hx : x ∈ dbUpdate s (fun r => decide (r.id = k)) f) (hid : x.id = k) :
    ∃ r ∈ s, r.id = k ∧ x = f r := by
  rw [mem_dbUpdate] at hx
  obtain ⟨y, hy, rfl⟩ := hx
  by_cases hp : y.id = k
  · exact ⟨y, hy, hp, by rw [if_pos (by simp [hp])]⟩
  · rw [if_neg (by simp [hp])] at hid
    exact absurd hid hp

theorem mem_dbUpdate_of_same {s : Store} {k : String} {f : Row → Row} {r : Row}
    (hr : r ∈ s) (hid : r.id = k) : f r ∈ dbUpdate s (fun r => decide (r.id = k)) f := by
  rw [mem_dbUpdate]
  exact ⟨r, hr, by rw [if_pos (by simp [hid])]⟩

theorem idsUnique_eq {s : Store} (h : idsUnique s) {a b : Row} (ha : a ∈ s) (hb : b ∈ s)
    (hid : a.id = b.id) : a = b :=
  List.inj_on_of_nodup_map h ha hb hid

theorem orderBy_mem {l : List Row} {r : Row} (h : orderByCreatedAtLimit1 l = some r) :
    r ∈ l := by
  induction l generalizing r with
  | nil => simp [orderByCreatedAtLimit1] at h
  | cons a as ih =>
    simp only [orderByCreatedAtLimit1] at h
    cases hb : orderByCreatedAtLimit1 as with
    | none =>
      rw [hb] at h
      simp only [Option.some.injEq] at h
      simp [h]
    | some b =>
      rw [hb] at h
      by_cases hle : bytesLE (timeText a.created_at) (timeText b.created_at) = true
      · dsimp only at h
        rw [if_pos hle] at h
        simp only [Option.some.injEq] at h
        simp [h]
      · dsimp only at h
        rw [if_neg hle] at h
        simp only [Option.some.injEq] at h
        subst h
        exact List.mem_cons_of_mem _ (ih hb)

theorem claim_of_select_none (s : Store) (now tUpd tRet : Time)
    (h : orderByCreatedAtLimit1 (s.filter (eligible now)) = none) :
    ClaimNextPending s now tUpd tRet = (s, none, none) := by
  simp [ClaimNextPending, h]

theorem claim_of_select_some (s : Store) (now tUpd tRet : Time) (r : Row)
    (h : orderByCreatedAtLimit1 (s.filter (eligible now)) = some r) :
    ClaimNextPending s now tUpd tRet =
      (dbUpdate s (fun x => decide (x.id = r.id) && decide (x.state = StatePending))
          (fun x => { x with state := StateProcessing, updated_at := tUpd }),
       some { scanRow r with State := StateProcessing, UpdatedAt := tRet }, none) := by
  have hr : r ∈ s.filter (eligible now) := orderBy_mem h
  rw [List.mem_filter] at hr
  have hpend : r.state = StatePending := by
    have := hr.2
    simp only [eligible, Bool.and_eq_true, decide_eq_true_eq] at this
    exact this.1
  have hcount : s.countP (fun x => decide (x.id = r.id) && decide (x.state = StatePending)) ≠ 0 := by
    intro h0
    rw [List.countP_eq_zero] at h0
    have := h0 r hr.1
    simp [hpend] at this
  simp only [ClaimNextPending, h, scanRow]
  rw [if_neg hcount]

theorem eligible_pending {now : Time} {r : Row} (h : eligible now r = true) :
    r.state = StatePending := by
  simp only [eligible, Bool.and_eq_true, decide_eq_true_eq] at h
  exact h.1

/-- What a successful claim did: it read an eligible row and moved it to processing. -/
theorem claim_some_inv {s : Store} {now tUpd tRet : Time} {j : Job}
    (h : (ClaimNextPending s now tUpd tRet).2.1 = some j) :
    ∃ r ∈ s, eligible now r = true ∧
      j = { scanRow r with State := StateProcessing, UpdatedAt := tRet } ∧
      (ClaimNextPending s now tUpd tRet).1 =
        dbUpdate s (fun x => decide (x.id = r.id) && decide (x.state = StatePending))
          (fun x => { x with state := StateProcessing, updated_at := tUpd }) := by
  cases hsel : orderByCreatedAtLimit1 (s.filter (eligible now)) with
  | none =>
    rw [claim_of_select_none s now tUpd tRet hsel] at h
    simp at h
  | some r =>
    have hr := List.mem_filter.mp (orderBy_mem hsel)
    rw [claim_of_select_some s now tUpd tRet r hsel] at h ⊢
    simp only [Option.some.injEq] at h
    exact ⟨r, hr.1, hr.2, h.symm, rfl⟩

theorem claim_none_inv {s : Store} {now tUpd tRet : Time}
    (h : (ClaimNextPending s now tUpd tRet).2.1 = none) :
    (ClaimNextPending s now tUpd tRet).1 = s := by
  cases hsel : orderByCreatedAtLimit1 (s.filter (eligible now)) with
  | none => rw [claim_of_select_none s now tUpd tRet hsel]
  | some r =>
    rw [claim_of_select_some s now tUpd tRet r hsel] at h
    simp at h

theorem claim_ids (s : Store) (now tUpd tRet : Time) :
    (ClaimNextPending s now tUpd tRet).1.map Row.id = s.map Row.id := by
  cases hsel : orderByCreatedAtLimit1 (s.filter (eligible now)) with
  | none => rw [claim_of_select_none s now tUpd tRet hsel]
  | some r =>
    rw [claim_of_select_some s now tUpd tRet r hsel]
    exact dbUpdate_ids _ _ _ (fun _ => rfl)

theorem eligible_iff (now : Time) (r : Row) :
    eligible now r = true ↔
      r.state = StatePending ∧ (r.next_run_at = none ∨
        ∃ t, r.next_run_at = some t ∧ bytesLE (timeText t) (timeText now) = true) := by
  cases hn : r.next_run_at with
  | none => simp [eligible, hn]
  | some t => simp [eligible, hn]

theorem dueAt_iff (now : Time) (r : Row) :
    dueAt now r = true ↔
      r.state = StatePending ∧ (r.next_run_at = none ∨
        ∃ t, r.next_run_at = some t ∧ t.ns ≤ now.ns) := by
  cases hn : r.next_run_at with
  | none => simp [dueAt, hn]
  | some t => simp [dueAt, hn]

theorem retryJob_ids (s : Store) (id : String) (now : Time) :
    (RetryJob s id now).1.map Row.id = s.map Row.id :=
  dbUpdate_ids _ _ _ (fun _ => rfl)

theorem retryJob_mem_other (s : Store) (id : String) (now : Time) (x : Row) (hx : x.id ≠ id) :
    x ∈ (RetryJob s id now).1 ↔ x ∈ s :=
  mem_dbUpdate_other (fun _ => rfl) (fun r h => by simpa using h) hx

/-- C5, on UTC timestamps: for a stored job, whatever its state, `RetryJob` at the UTC
time `t` leaves it pending with attempts 0 and `next_run_at = t`, hence eligible for
every claim at a UTC time `now` not before `t` (years of four digits); its command,
max_retries, created_at and last_error and every other row are unchanged. -/
theorem retryJob_resets_utc (s : Store) (id : String) (t : Time) (r : Row)
    (hkey : idsUnique s) (hr : r ∈ s) (hid : r.id = id) (ht : t.isUTC = true) :
    (RetryJob s id t).2 = none ∧
    (RetryJob s id t).1.map Row.id = s.map Row.id ∧
    (∃ x ∈ (RetryJob s id t).1, x.id = id) ∧
    (∀ x ∈ (RetryJob s id t).1, x.id = id →
      x.state = StatePending ∧ x.attempts = 0 ∧ x.next_run_at = some t ∧
      (∀ now : Time, now.isUTC = true → t.ns ≤ now.ns → eligible now x = true) ∧
      x.command = r.command ∧ x.max_retries = r.max_retries ∧
      x.created_at = r.created_at ∧ x.last_error = r.last_error) ∧
    (∀ x, x.id ≠ id → (x ∈ (RetryJob s id t).1 ↔ x ∈ s)) := by
  refine ⟨rfl, dbUpdate_ids _ _ _ (fun _ => rfl), ?_, ?_, ?_⟩
  · refine ⟨{ r with state := StatePending, attempts := 0, updated_at := t,
                     next_run_at := some t }, ?_, hid⟩
    simp only [RetryJob, mem_dbUpdate]
    exact ⟨r, hr, by simp [hid]⟩
  · intro x hx hxid
    simp only [RetryJob, mem_dbUpdate] at hx
    obtain ⟨y, hy, rfl⟩ := hx
    by_cases hp : y.id = id
    · have hyr : y = r := idsUnique_eq hkey hy hr (hp.trans hid.symm)
      subst hyr
      rw [if_pos (by simp [hp])]
      refine ⟨rfl, rfl, rfl, ?_, rfl, rfl, rfl, rfl⟩
      intro now hnow hle
      have hb := (bytesLE_timeText_utc t now ht hnow).mpr hle
      simp [eligible, hb]
    · rw [if_neg (by simp [hp])] at hxid
      exact absurd hxid hp
  · intro x hx
    exact mem_dbUpdate_other (fun _ => rfl) (fun r h => by simpa using h) hx

theorem retryJob_resets_utc_witness :
    (idsUnique sampleStore ∧ sampleRow "d" StateDead 0 (some 0) ∈ sampleStore ∧
      (sampleRow "d" StateDead 0 (some 0)).id = "d" ∧ (500 : Time).isUTC = true) ∧
    ((RetryJob sampleStore "d" 500).2 = none ∧
     (RetryJob sampleStore "d" 500).1.map Row.id = sampleStore.map Row.id ∧
     (∃ x ∈ (RetryJob sampleStore "d" 500).1, x.id = "d") ∧
     (∀ x ∈ (RetryJob sampleStore "d" 500).1, x.id = "d" →
       x.state = StatePending ∧ x.attempts = 0 ∧ x.next_run_at = some 500 ∧
       (∀ now : Time, now.isUTC = true → (500 : Time).ns ≤ now.ns → eligible now x = true) ∧
       x.command = (sampleRow "d" StateDead 0 (some 0)).command ∧
       x.max_retries = (sampleRow "d" StateDead 0 (some 0)).max_retries ∧
       x.created_at = (sampleRow "d" StateDead 0 (some 0)).created_at ∧
       x.last_error = (sampleRow "d" StateDead 0 (some 0)).last_error) ∧
     (∀ x, x.id ≠ "d" → (x ∈ (RetryJob sampleStore "d" 500).1 ↔ x ∈ sampleStore))) :=
  ⟨⟨by decide, by decide, by decide, by decide⟩,
   retryJob_resets_utc sampleStore "d" 500 (sampleRow "d" StateDead 0 (some 0))
     (by decide) (by decide) (by decide) (by decide)⟩

/-- C5, counterexample: `RetryJob` at 2024-01-01 06:00 UTC, then a claim whose `now` is
07:00 UTC written in the zone -05:00 (`02:00:00-05:00`): `now` is not before the retry
time, yet the reset row fails the claim query, whose text comparison puts `06:00:00`
after `02:00:00`, and `ClaimNextPending` returns no job. -/
theorem retryJob_not_eligible_mixed_zone :
    formatTime (rfc3339 2024 1 1 6 0 0 0 0) = "2024-01-01 06:00:00+00:00" ∧
    formatTime (rfc3339 2024 1 1 2 0 0 0 (-300)) = "2024-01-01 02:00:00-05:00" ∧
    (rfc3339 2024 1 1 6 0 0 0 0).ns ≤ (rfc3339 2024 1 1 2 0 0 0 (-300)).ns ∧
    (∀ x ∈ (RetryJob sampleStore "d" (rfc3339 2024 1 1 6 0 0 0 0)).1, x.id = "d" →
      x.state = StatePending ∧ x.next_run_at = some (rfc3339 2024 1 1 6 0 0 0 0) ∧
      eligible (rfc3339 2024 1 1 2 0 0 0 (-300)) x = false) ∧
    (ClaimNextPending
      (RetryJob [sampleRow "d" StateDead 0 (some 0)] "d" (rfc3339 2024 1 1 6 0 0 0 0)).1
      (rfc3339 2024 1 1 2 0 0 0 (-300)) (rfc3339 2024 1 1 7 0 0 1 0)
      (rfc3339 2024 1 1 7 0 0 2 0)).2 = (none, none) := by
  decide

/-! ## `UpdateJob` -/

theorem updateJob_store (s : Store) (j : Job) (now : Time) :
    (UpdateJob s j now).1 =
      dbUpdate s (fun r => decide (r.id = j.ID)) (applyUpdate { j with UpdatedAt := now }) :=
  rfl

theorem updateJob_ids (s : Store) (j : Job) (now : Time) :
    (UpdateJob s j now).1.map Row.id = s.map Row.id :=
  dbUpdate_ids _ _ _ (fun _ => rfl)

theorem updateJob_mem_other (s : Store) (j : Job) (now : Time) (x : Row) (hx : x.id ≠ j.ID) :
    x ∈ (UpdateJob s j now).1 ↔ x ∈ s := by
  rw [updateJob_store]
  exact mem_dbUpdate_other (fun _ => rfl) (fun r h => by simpa using h) hx

theorem updateJob_mem_same (s : Store) (j : Job) (now : Time) (x : Row)
    (hx : x ∈ (UpdateJob s j now).1) (hid : x.id = j.ID) :
    ∃ r ∈ s, r.id = j.ID ∧ x = applyUpdate { j with UpdatedAt := now } r := by
  rw [updateJob_store, mem_dbUpdate] at hx
  obtain ⟨y, hy, rfl⟩ := hx
  by_cases hp : y.id = j.ID
  · exact ⟨y, hy, hp, by rw [if_pos (by simp [hp])]⟩
  · rw [if_neg (by simp [hp])] at hid
    exact absurd hid hp

/-- C9, as the code has it: `UpdateJob` overwrites `command`, `state`, `attempts`,
`max_retries`, `updated_at` (with the current time), `next_run_at` and `last_error` of the
row under `j.ID` with the values of `j`, reports no error, keeps that row's `created_at`,
and leaves every row under another identifier as it was. -/
theorem updateJob_frame (s : Store) (j : Job) (now : Time) :
    (UpdateJob s j now).2.2 = none ∧
    (UpdateJob s j now).1.map Row.id = s.map Row.id ∧
    (∀ x ∈ (UpdateJob s j now).1, x.id = j.ID →
      x.command = j.Command ∧ x.state = j.State ∧ x.attempts = j.Attempts ∧
      x.max_retries = j.MaxRetries ∧ x.updated_at = now ∧
      x.next_run_at = some j.NextRunAt ∧ x.last_error = j.LastError) ∧
    List.Forall₂ (fun r x => x.id = r.id ∧ x.created_at = r.created_at ∧
      (r.id ≠ j.ID → x = r)) s (UpdateJob s j now).1 := by
  refine ⟨rfl, updateJob_ids s j now, ?_, ?_⟩
  · intro x hx hid
    obtain ⟨r, _, _, rfl⟩ := updateJob_mem_same s j now x hx hid
    exact ⟨rfl, rfl, rfl, rfl, rfl, rfl, rfl⟩
  · rw [updateJob_store, dbUpdate, List.forall₂_map_right_iff]
    apply List.forall₂_same.mpr
    intro r _
    by_cases hp : r.id = j.ID
    · simp [hp, applyUpdate]
    · simp [hp]

/-- C9, counterexample: `UpdateJob` with a job value whose command differs from the stored
one replaces the stored command, which the claim says is left unchanged. -/
theorem updateJob_overwrites_command :
    sampleRow "a" StatePending 20 none ∈ onePendingStore ∧
    (sampleRow "a" StatePending 20 none).command = "echo hi" ∧
    ∀ x ∈ (UpdateJob onePendingStore otherJob 50).1, x.id = otherJob.ID →
      x.command = "echo bye" ∧ x.command ≠ (sampleRow "a" StatePending 20 none).command := by
  decide

/-! ## `SaveJob` -/

theorem prepareJob_fields (j : Job) (uuid : String) (now : Time) (hid : j.ID ≠ "") :
    prepareJob j uuid now =
      { j with State := if j.State = "" then StatePending else j.State,
               CreatedAt := if j.CreatedAt.IsZero then now else j.CreatedAt,
               UpdatedAt := now } := by
  cases j with
  | mk ID Command State Attempts MaxRetries CreatedAt UpdatedAt NextRunAt LastError =>
    simp only at hid
    simp only [prepareJob, hid, if_false]
    by_cases h1 : State = "" <;> by_cases h2 : CreatedAt.IsZero = true <;> simp [h1, h2]

theorem saveJob_cases (s : Store) (j : Job) (uuid : String) (now now2 : Time) :
    SaveJob s j uuid now now2 =
      if s.any (fun x => decide (x.id = (prepareJob j uuid now).ID)) then
        UpdateJob s (prepareJob j uuid now) now2
      else (s ++ [rowOfJob (prepareJob j uuid now)], prepareJob j uuid now, none) := by
  simp only [SaveJob, dbInsert]
  by_cases h : s.any (fun x => decide (x.id = (rowOfJob (prepareJob j uuid now)).id)) = true
  · have h2 : s.any (fun x => decide (x.id = (prepareJob j uuid now).ID)) = true := h
    rw [if_pos h, if_pos h2]
  · have h2 : ¬ s.any (fun x => decide (x.id = (prepareJob j uuid now).ID)) = true := h
    rw [if_neg h, if_neg h2]

theorem any_id_iff (s : Store) (k : String) :
    s.any (fun x => decide (x.id = k)) = true ↔ k ∈ s.map Row.id := by
  simp only [List.any_eq_true, decide_eq_true_eq, List.mem_map]

theorem eraseUpdatedAt_applyUpdate (j : Job) (x : Row) (h : Carries j x) :
    eraseUpdatedAt (applyUpdate j x) = eraseUpdatedAt x := by
  obtain ⟨h1, h2, h3, h4, h5, h6⟩ := h
  cases x
  simp only at h1 h2 h3 h4 h5 h6
  simp [eraseUpdatedAt, applyUpdate, h1, h2, h3, h4, h5, h6]

theorem updateJob_noop (s : Store) (j : Job) (now : Time)
    (h : ∀ x ∈ s, x.id = j.ID → Carries j x) :
    (UpdateJob s j now).1.map eraseUpdatedAt = s.map eraseUpdatedAt := by
  rw [updateJob_store, dbUpdate, List.map_map]
  apply List.map_congr_left
  intro x hx
  by_cases hp : x.id = j.ID
  · simp only [Function.comp, hp, decide_True, if_true]
    exact eraseUpdatedAt_applyUpdate _ x (h x hx hp)
  · simp [Function.comp, hp]

theorem prepareJob_updatedAt (k : Job) (t : Time) (u : String) (n : Time) :
    prepareJob { k with UpdatedAt := t } u n = prepareJob k u n := by
  cases k with
  | mk ID Command State Attempts MaxRetries CreatedAt UpdatedAt NextRunAt LastError =>
    simp only [prepareJob]
    by_cases h0 : ID = "" <;> by_cases h1 : State = "" <;>
      by_cases h2 : CreatedAt.IsZero = true <;> simp [h0, h1, h2]

theorem prepareJob_id (j : Job) (uuid : String) (now : Time) (hid : j.ID ≠ "") :
    (prepareJob j uuid now).ID = j.ID := by
  rw [prepareJob_fields j uuid now hid]

theorem carries_prepareJob_iff (j : Job) (u1 u2 : String) (n1 n2 : Time) (hid : j.ID ≠ "")
    (x : Row) : Carries (prepareJob j u1 n1) x ↔ Carries (prepareJob j u2 n2) x := by
  rw [prepareJob_fields j u1 n1 hid, prepareJob_fields j u2 n2 hid]
  exact Iff.rfl

theorem carries_prepareJob_twice (j : Job) (u1 u2 : String) (n1 n2 : Time) (hid : j.ID ≠ "")
    (x : Row) :
    Carries (prepareJob j u1 n1) x ↔ Carries (prepareJob (prepareJob j u1 n1) u2 n2) x := by
  have hid2 : (prepareJob j u1 n1).ID ≠ "" := by rw [prepareJob_id j u1 n1 hid]; exact hid
  rw [prepareJob_fields (prepareJob j u1 n1) u2 n2 hid2, prepareJob_fields j u1 n1 hid]
  have hp : StatePending ≠ "" := by decide
  by_cases hs : j.State = ""
  · simp [Carries, hs, hp]
  · simp [Carries, hs]

theorem saveJob_carries (s : Store) (j : Job) (uuid : String) (now now2 : Time)
    (x : Row) (hx : x ∈ (SaveJob s j uuid now now2).1)
    (hxid : x.id = (prepareJob j uuid now).ID) : Carries (prepareJob j uuid now) x := by
  rw [saveJob_cases] at hx
  by_cases h : s.any (fun x => decide (x.id = (prepareJob j uuid now).ID)) = true
  · rw [if_pos h] at hx
    obtain ⟨r, _, _, rfl⟩ := updateJob_mem_same s _ now2 x hx hxid
    exact ⟨rfl, rfl, rfl, rfl, rfl, rfl⟩
  · rw [if_neg h] at hx
    rcases List.mem_append.mp hx with hxs | hxn
    · exact absurd ((any_id_iff s _).mpr (List.mem_map.mpr ⟨x, hxs, hxid⟩)) h
    · rw [List.mem_singleton] at hxn
      subst hxn
      exact ⟨rfl, rfl, rfl, rfl, rfl, rfl⟩

theorem saveJob_id_mem (s : Store) (j : Job) (uuid : String) (now now2 : Time) :
    (prepareJob j uuid now).ID ∈ (SaveJob s j uuid now now2).1.map Row.id := by
  rw [saveJob_cases]
  by_cases h : s.any (fun x => decide (x.id = (prepareJob j uuid now).ID)) = true
  · rw [if_pos h, updateJob_ids]
    exact (any_id_iff s _).mp h
  · rw [if_neg h]
    simp [rowOfJob]

/-- `SaveJob` keeps the key unique: it inserts only under a key that is absent. -/
theorem saveJob_idsUnique (s : Store) (j : Job) (uuid : String) (now now2 : Time)
    (h : idsUnique s) : idsUnique (SaveJob s j uuid now now2).1 := by
  rw [saveJob_cases]
  by_cases hany : s.any (fun x => decide (x.id = (prepareJob j uuid now).ID)) = true
  · rw [if_pos hany]
    unfold idsUnique
    rw [updateJob_ids]
    exact h
  · rw [if_neg hany]
    unfold idsUnique at h ⊢
    rw [List.map_append, List.map_singleton]
    refine List.Nodup.append h (List.nodup_singleton _) ?_
    intro a ha hb
    rw [List.mem_singleton] at hb
    subst hb
    exact hany ((any_id_iff s _).mpr ha)

theorem saveJob_of_mem (s : Store) (j : Job) (uuid : String) (now now2 : Time)
    (h : (prepareJob j uuid now).ID ∈ s.map Row.id) :
    SaveJob s j uuid now now2 = UpdateJob s (prepareJob j uuid now) now2 := by
  rw [saveJob_cases, if_pos ((any_id_iff s _).mpr h)]

theorem saveJob_again (s : Store) (j k : Job) (u1 u2 : String) (n1 n2 n3 n4 : Time)
    (hk : (prepareJob k u2 n3).ID = (prepareJob j u1 n1).ID)
    (hc : ∀ x, Carries (prepareJob j u1 n1) x → Carries (prepareJob k u2 n3) x) :
    (SaveJob (SaveJob s j u1 n1 n2).1 k u2 n3 n4).2.2 = none ∧
    (SaveJob (SaveJob s j u1 n1 n2).1 k u2 n3 n4).1.map eraseUpdatedAt =
      (SaveJob s j u1 n1 n2).1.map eraseUpdatedAt := by
  have hmem : (prepareJob k u2 n3).ID ∈ (SaveJob s j u1 n1 n2).1.map Row.id := by
    rw [hk]; exact saveJob_id_mem s j u1 n1 n2
  rw [saveJob_of_mem _ k u2 n3 n4 hmem]
  refine ⟨rfl, updateJob_noop _ _ _ ?_⟩
  intro x hx hxid
  exact hc x (saveJob_carries s j u1 n1 n2 x hx (hxid.trans hk))

/-- C8, as the code has it: for a job `j` with an identifier, `SaveJob(j)` on a store that
holds the identifier reports no error and updates in place: the store keeps the same
keys, one of them `j.ID`, whose row now carries the command, state (pending when `j` has
none), attempts, max_retries, next_run_at and last_error of `j` and a fresh updated_at,
while its created_at stays the stored one; the other rows are untouched.  And on any
store a second `SaveJob(j)`, with `j` as passed at first or as the first call left it,
reports no error and leaves the store the first call produced, up to updated_at. -/
theorem saveJob_upsert (s : Store) (j : Job) (u1 u2 : String) (n1 n2 n3 n4 : Time)
    (hid : j.ID ≠ "") :
    (idsUnique s → j.ID ∈ s.map Row.id →
      (SaveJob s j u1 n1 n2).2.2 = none ∧
      (SaveJob s j u1 n1 n2).1.map Row.id = s.map Row.id ∧
      ((SaveJob s j u1 n1 n2).1.map Row.id).count j.ID = 1 ∧
      (∀ x ∈ (SaveJob s j u1 n1 n2).1, x.id = j.ID →
        x.command = j.Command ∧
        x.state = (if j.State = "" then StatePending else j.State) ∧
        x.attempts = j.Attempts ∧ x.max_retries = j.MaxRetries ∧
        x.next_run_at = some j.NextRunAt ∧ x.last_error = j.LastError ∧
        x.updated_at = n2 ∧ ∃ r ∈ s, r.id = j.ID ∧ x.created_at = r.created_at) ∧
      (∀ x, x.id ≠ j.ID → (x ∈ (SaveJob s j u1 n1 n2).1 ↔ x ∈ s))) ∧
    ((SaveJob (SaveJob s j u1 n1 n2).1 j u2 n3 n4).2.2 = none ∧
      (SaveJob (SaveJob s j u1 n1 n2).1 j u2 n3 n4).1.map eraseUpdatedAt =
        (SaveJob s j u1 n1 n2).1.map eraseUpdatedAt) ∧
    ((SaveJob (SaveJob s j u1 n1 n2).1 (SaveJob s j u1 n1 n2).2.1 u2 n3 n4).2.2 = none ∧
      (SaveJob (SaveJob s j u1 n1 n2).1 (SaveJob s j u1 n1 n2).2.1 u2 n3 n4).1.map
          eraseUpdatedAt =
        (SaveJob s j u1 n1 n2).1.map eraseUpdatedAt) := by
  have hpid : (prepareJob j u1 n1).ID = j.ID := prepareJob_id j u1 n1 hid
  refine ⟨?_, ?_, ?_⟩
  · intro hkey hmem
    have hsave : SaveJob s j u1 n1 n2 = UpdateJob s (prepareJob j u1 n1) n2 :=
      saveJob_of_mem s j u1 n1 n2 (by rw [hpid]; exact hmem)
    rw [hsave]
    refine ⟨rfl, updateJob_ids _ _ _, ?_, ?_, ?_⟩
    · rw [updateJob_ids]
      exact List.count_eq_one_of_mem hkey hmem
    · intro x hx hxid
      obtain ⟨r, hr, hrid, rfl⟩ := updateJob_mem_same s _ n2 x hx (hxid.trans hpid.symm)
      rw [prepareJob_fields j u1 n1 hid]
      exact ⟨rfl, rfl, rfl, rfl, rfl, rfl, rfl, r, hr, hrid.trans hpid, rfl⟩
    · intro x hx
      exact updateJob_mem_other s _ n2 x (by rw [hpid]; exact hx)
  · exact saveJob_again s j j u1 u2 n1 n2 n3 n4
      (by rw [hpid, prepareJob_id j u2 n3 hid])
      (fun x hx => (carries_prepareJob_iff j u1 u2 n1 n3 hid x).mp hx)
  · have hj1 : (SaveJob s j u1 n1 n2).2.1 =
        { prepareJob j u1 n1 with UpdatedAt := (SaveJob s j u1 n1 n2).2.1.UpdatedAt } := by
      rw [saveJob_cases]
      by_cases h : s.any (fun x => decide (x.id = (prepareJob j u1 n1).ID)) = true
      · rw [if_pos h]; rfl
      · rw [if_neg h]
    have hprep : prepareJob (SaveJob s j u1 n1 n2).2.1 u2 n3 =
        prepareJob (prepareJob j u1 n1) u2 n3 := by
      rw [hj1]
      exact prepareJob_updatedAt _ _ _ _
    have hres := saveJob_again s j (prepareJob j u1 n1) u1 u2 n1 n2 n3 n4
      (by rw [prepareJob_id _ u2 n3 (by rw [hpid]; exact hid)])
      (fun x hx => (carries_prepareJob_twice j u1 u2 n1 n3 hid x).mp hx)
    rw [saveJob_cases] at hres ⊢
    rw [hprep]
    exact hres

theorem saveJob_upsert_witness :
    (otherJob.ID ≠ "" ∧ idsUnique onePendingStore ∧ otherJob.ID ∈ onePendingStore.map Row.id) ∧
    (SaveJob onePendingStore otherJob "u1" 50 51).2.2 = none ∧
    ((SaveJob onePendingStore otherJob "u1" 50 51).1.map Row.id).count otherJob.ID = 1 ∧
    (SaveJob (SaveJob onePendingStore otherJob "u1" 50 51).1 otherJob "u2" 60 61).1.map
        eraseUpdatedAt =
      (SaveJob onePendingStore otherJob "u1" 50 51).1.map eraseUpdatedAt :=
  ⟨⟨by decide, by decide, by decide⟩,
   ((saveJob_upsert onePendingStore otherJob "u1" "u2" 50 51 60 61 (by decide)).1
      (by decide) (by decide)).1,
   ((saveJob_upsert onePendingStore otherJob "u1" "u2" 50 51 60 61 (by decide)).1
      (by decide) (by decide)).2.2.1,
   (saveJob_upsert onePendingStore otherJob "u1" "u2" 50 51 60 61 (by decide)).2.1.2⟩

/-- C8, counterexample: `SaveJob` of a job whose identifier is stored does not carry the
job's `CreatedAt` into the store; the row keeps the creation time it had. -/
theorem saveJob_keeps_created_at :
    otherJob.ID ∈ onePendingStore.map Row.id ∧
    otherJob.CreatedAt = 99 ∧
    (SaveJob onePendingStore otherJob "u1" 50 51).2.2 = none ∧
    (SaveJob onePendingStore otherJob "u1" 50 51).2.1.CreatedAt = 99 ∧
    ∀ x ∈ (SaveJob onePendingStore otherJob "u1" 50 51).1, x.id = otherJob.ID →
      x.created_at = 20 := by
  decide

/-! ## Lemmas on `runJob` and the backoff -/

theorem wrap64_of_range (x : Int) (hlo : -(2 ^ 63) ≤ x) (hhi : x < 2 ^ 63) : wrap64 x = x := by
  unfold wrap64
  omega

theorem effectiveBase_ge_two (cfg : Config) : 2 ≤ effectiveBase cfg := by
  unfold effectiveBase
  split_ifs with h
  · exact le_refl _
  · omega

theorem powLoop_eq_pow (base : Int) (hb : 1 ≤ base) (n : Nat) (p : Int) (hp : 0 ≤ p)
    (hbound : p * base ^ n < 2 ^ 63) : powLoop base n p = p * base ^ n := by
  induction n generalizing p with
  | zero => simp [powLoop]
  | succ n ih =>
    have hpb : 0 ≤ p * base := mul_nonneg hp (by omega)
    have hpow : (1 : Int) ≤ base ^ n := one_le_pow₀ hb
    have hstep : p * base ≤ p * base ^ (n + 1) := by
      rw [pow_succ, ← mul_assoc, mul_right_comm]
      exact le_mul_of_one_le_right hpb hpow
    have hw : wrap64 (p * base) = p * base :=
      wrap64_of_range _ (by have : (0:Int) ≤ 2 ^ 63 := by norm_num
                            omega) (lt_of_le_of_lt hstep hbound)
    have hb2 : p * base * base ^ n < 2 ^ 63 := by
      have : p * base * base ^ n = p * base ^ (n + 1) := by ring
      rw [this]; exact hbound
    simp only [powLoop, hw]
    rw [ih (p * base) hpb hb2]
    ring

/-- While `base'^attempts` seconds fit a `time.Duration`, the wait is exactly that. -/
theorem backoffWait_exact (cfg : Config) (a : Int)
    (hbound : effectiveBase cfg ^ a.toNat * Second < 2 ^ 63) :
    backoffWait cfg a = effectiveBase cfg ^ a.toNat * Second := by
  have hb := effectiveBase_ge_two cfg
  have hpow : (1 : Int) ≤ effectiveBase cfg ^ a.toNat := one_le_pow₀ (by omega)
  have hsec : (1 : Int) ≤ Second := by decide
  have hle : effectiveBase cfg ^ a.toNat ≤ effectiveBase cfg ^ a.toNat * Second :=
    le_mul_of_one_le_right (by omega) hsec
  have hloop : powLoop (effectiveBase cfg) a.toNat 1 = effectiveBase cfg ^ a.toNat := by
    rw [powLoop_eq_pow _ (by omega) _ 1 (by norm_num) (by rw [one_mul]; omega), one_mul]
  unfold backoffWait
  rw [hloop]
  exact wrap64_of_range _ (by have : (0:Int) ≤ 2 ^ 63 := by norm_num
                              omega) hbound

/-- Within that range the wait grows strictly with the attempt count. -/
theorem backoffWait_increasing (cfg : Config) (a b : Int) (ha : 0 ≤ a) (hab : a < b)
    (hbound : effectiveBase cfg ^ b.toNat * Second < 2 ^ 63) :
    backoffWait cfg a < backoffWait cfg b := by
  have hb := effectiveBase_ge_two cfg
  have hlt : a.toNat < b.toNat := by omega
  have hpow : effectiveBase cfg ^ a.toNat < effectiveBase cfg ^ b.toNat :=
    pow_lt_pow_right₀ (by omega) hlt
  have hsec : (0 : Int) < Second := by decide
  have hmul : effectiveBase cfg ^ a.toNat * Second < effectiveBase cfg ^ b.toNat * Second :=
    mul_lt_mul_of_pos_right hpow hsec
  rw [backoffWait_exact cfg b hbound, backoffWait_exact cfg a (lt_trans hmul hbound)]
  exact hmul

/-- With base 2 the waits after attempts 1, 2 and 3 are 2s, 4s and 8s. -/
theorem backoffWait_base_two (m : Int) :
    backoffWait ⟨2, m⟩ 1 = 2 * Second ∧ backoffWait ⟨2, m⟩ 2 = 4 * Second ∧
    backoffWait ⟨2, m⟩ 3 = 8 * Second := by
  refine ⟨?_, ?_, ?_⟩ <;> rfl

theorem runJob_store (cfg : Config) (s : Store) (j : Job) (err : GoError) (now tUpd : Time) :
    (runJob cfg s j err now tUpd).1 =
      dbUpdate s (fun r => decide (r.id = j.ID)) (applyUpdate (runJob cfg s j err now tUpd).2) := by
  cases err with
  | none => rfl
  | some e =>
    simp only [runJob]
    split_ifs <;> rfl

theorem runJob_failure_job (cfg : Config) (s : Store) (j : Job) (e : String) (now tUpd : Time) :
    (runJob cfg s j (some e) now tUpd).2 =
      if (if j.MaxRetries = 0 then cfg.MaxRetries else j.MaxRetries) ≤ wrap64 (j.Attempts + 1) then
        { j with Attempts := wrap64 (j.Attempts + 1), LastError := e, State := StateDead,
                 UpdatedAt := tUpd }
      else
        { j with Attempts := wrap64 (j.Attempts + 1), LastError := e, State := StatePending,
                 NextRunAt := now.Add (backoffWait cfg (wrap64 (j.Attempts + 1))),
                 UpdatedAt := tUpd } := by
  simp only [runJob, ge_iff_le]
  split_ifs <;> rfl

theorem runJob_success_job (cfg : Config) (s : Store) (j : Job) (now tUpd : Time) :
    (runJob cfg s j none now tUpd).2 = { j with State := StateCompleted, UpdatedAt := tUpd } :=
  rfl

theorem runJob_id (cfg : Config) (s : Store) (j : Job) (err : GoError) (now tUpd : Time) :
    (runJob cfg s j err now tUpd).2.ID = j.ID := by
  cases err with
  | none => rfl
  | some e =>
    rw [runJob_failure_job]
    split_ifs <;> rfl

theorem runJob_state (cfg : Config) (s : Store) (j : Job) (err : GoError) (now tUpd : Time) :
    (runJob cfg s j err now tUpd).2.State = StateCompleted ∨
    (runJob cfg s j err now tUpd).2.State = StatePending ∨
    (runJob cfg s j err now tUpd).2.State = StateDead := by
  cases err with
  | none => exact Or.inl rfl
  | some e =>
    rw [runJob_failure_job]
    split_ifs <;> first | exact Or.inr (Or.inr rfl) | exact Or.inr (Or.inl rfl)

theorem runJob_ids (cfg : Config) (s : Store) (j : Job) (err : GoError) (now tUpd : Time) :
    (runJob cfg s j err now tUpd).1.map Row.id = s.map Row.id := by
  rw [runJob_store]
  exact dbUpdate_ids _ _ _ (fun _ => rfl)

/-! ## The retry state machine of `runJob` -/

/-- C3, for attempts below the largest `int`: for a claimed job with attempts `a`,
`-2^63 <= a < 2^63 - 1`, max_retries `m` and worker default `d`, a failed execution stores attempts `a + 1` and the
failure text as last_error, and with `limit = m` if `m` is nonzero else `d` the row is
stored as dead exactly when `a + 1 >= limit` and as pending otherwise.  In particular a
job with max_retries 2 and attempts 0 is pending with attempts 1 after its first failure,
and dead with attempts 2 after the failure of its next claimed execution. -/
theorem runJob_failure_outcome (cfg : Config) (s : Store) (j : Job) (e : String) (now tUpd : Time)
    (hrow : j.ID ∈ s.map Row.id)
    (hlo : -(2 ^ 63) ≤ j.Attempts) (hhi : j.Attempts + 1 < 2 ^ 63) :
    (∃ x ∈ (runJob cfg s j (some e) now tUpd).1, x.id = j.ID) ∧
    (∀ x ∈ (runJob cfg s j (some e) now tUpd).1, x.id = j.ID →
      x.attempts = j.Attempts + 1 ∧ x.last_error = e ∧
      (x.state = StateDead ↔
        (if j.MaxRetries = 0 then cfg.MaxRetries else j.MaxRetries) ≤ j.Attempts + 1) ∧
      (x.state ≠ StateDead → x.state = StatePending)) ∧
    (j.Attempts = 0 → j.MaxRetries = 2 →
      (∀ x ∈ (runJob cfg s j (some e) now tUpd).1, x.id = j.ID →
        x.state = StatePending ∧ x.attempts = 1) ∧
      ∀ (now2 t1 t2 now3 t3 : Time) (e2 : String) (k : Job),
        (ClaimNextPending (runJob cfg s j (some e) now tUpd).1 now2 t1 t2).2.1 = some k →
        k.ID = j.ID →
        ∀ x ∈ (runJob cfg (ClaimNextPending (runJob cfg s j (some e) now tUpd).1 now2 t1 t2).1
                  k (some e2) now3 t3).1,
          x.id = j.ID → x.state = StateDead ∧ x.attempts = 2) := by
  have hw : wrap64 (j.Attempts + 1) = j.Attempts + 1 := wrap64_of_range _ (by omega) hhi
  have hpd : StatePending ≠ StateDead := by decide
  have hmain : ∀ x ∈ (runJob cfg s j (some e) now tUpd).1, x.id = j.ID →
      x.attempts = j.Attempts + 1 ∧ x.last_error = e ∧
      (x.state = StateDead ↔
        (if j.MaxRetries = 0 then cfg.MaxRetries else j.MaxRetries) ≤ j.Attempts + 1) ∧
      (x.state ≠ StateDead → x.state = StatePending) := by
    intro x hx hxid
    rw [runJob_store] at hx
    obtain ⟨r, _, _, rfl⟩ := mem_dbUpdate_same hx hxid
    rw [runJob_failure_job, hw]
    by_cases hlim : (if j.MaxRetries = 0 then cfg.MaxRetries else j.MaxRetries) ≤ j.Attempts + 1
    · rw [if_pos hlim]
      exact ⟨rfl, rfl, ⟨fun _ => hlim, fun _ => rfl⟩, fun h => absurd rfl h⟩
    · rw [if_neg hlim]
      exact ⟨rfl, rfl, ⟨fun h => absurd h hpd, fun h => absurd h hlim⟩, fun _ => rfl⟩
  refine ⟨?_, hmain, ?_⟩
  · obtain ⟨r, hr, hrid⟩ := List.mem_map.mp hrow
    rw [runJob_store]
    exact ⟨_, mem_dbUpdate_of_same hr hrid, hrid⟩
  · intro ha hm
    have hfirst : ∀ x ∈ (runJob cfg s j (some e) now tUpd).1, x.id = j.ID →
        x.state = StatePending ∧ x.attempts = 1 ∧ x.max_retries = 2 := by
      intro x hx hxid
      have hmx := hmain x hx hxid
      rw [runJob_store] at hx
      obtain ⟨r, _, _, hxeq⟩ := mem_dbUpdate_same hx hxid
      have hmr : x.max_retries = 2 := by
        rw [hxeq, runJob_failure_job]
        split_ifs <;> exact hm
      refine ⟨hmx.2.2.2 ?_, by rw [hmx.1, ha]; rfl, hmr⟩
      intro hdead
      have := hmx.2.2.1.mp hdead
      rw [ha, hm] at this
      simp at this
    refine ⟨fun x hx hxid => ⟨(hfirst x hx hxid).1, (hfirst x hx hxid).2.1⟩, ?_⟩
    intro now2 t1 t2 now3 t3 e2 k hclaim hk x hx hxid
    obtain ⟨r, hr, _, hkeq, _⟩ := claim_some_inv hclaim
    have hrid : r.id = j.ID := by rw [← hk, hkeq]; rfl
    have hrf := hfirst r hr hrid
    have hka : k.Attempts = 1 := by rw [hkeq]; exact hrf.2.1
    have hkm : k.MaxRetries = 2 := by rw [hkeq]; exact hrf.2.2
    rw [runJob_store] at hx
    obtain ⟨r2, _, _, rfl⟩ := mem_dbUpdate_same hx (hxid.trans hk.symm)
    rw [runJob_failure_job, hka, hkm]
    have hw2 : wrap64 (1 + 1) = 2 := by decide
    rw [hw2]
    exact ⟨rfl, rfl⟩

theorem runJob_failure_outcome_witness :
    ((heldJob 0 2).ID ∈ (heldStore 0 2).map Row.id ∧
      -(2 ^ 63) ≤ (heldJob 0 2).Attempts ∧ (heldJob 0 2).Attempts + 1 < 2 ^ 63) ∧
    (∃ x ∈ (runJob defaultConfig (heldStore 0 2) (heldJob 0 2) (some "exit status 2") 100 101).1,
      x.id = (heldJob 0 2).ID) ∧
    (∀ x ∈ (runJob defaultConfig (heldStore 0 2) (heldJob 0 2) (some "exit status 2") 100 101).1,
      x.id = (heldJob 0 2).ID →
      x.attempts = (heldJob 0 2).Attempts + 1 ∧ x.last_error = "exit status 2" ∧
      (x.state = StateDead ↔
        (if (heldJob 0 2).MaxRetries = 0 then defaultConfig.MaxRetries
          else (heldJob 0 2).MaxRetries) ≤ (heldJob 0 2).Attempts + 1) ∧
      (x.state ≠ StateDead → x.state = StatePending)) :=
  ⟨⟨by decide, by decide, by decide⟩,
   (runJob_failure_outcome defaultConfig (heldStore 0 2) (heldJob 0 2) "exit status 2" 100 101
      (by decide) (by decide) (by decide)).1,
   (runJob_failure_outcome defaultConfig (heldStore 0 2) (heldJob 0 2) "exit status 2" 100 101
      (by decide) (by decide) (by decide)).2.1⟩

/-- C3, counterexample: at attempts `2^63 - 1`, the largest `int`, the increment wraps:
the failure stores attempts `-2^63`, not `a + 1`, and the job is stored pending although
`a + 1` is not below the limit 2. -/
theorem runJob_failure_at_max_int :
    (heldJob 9223372036854775807 2).Attempts = 2 ^ 63 - 1 ∧
    (heldJob 9223372036854775807 2).MaxRetries = 2 ∧
    (heldJob 9223372036854775807 2).MaxRetries ≤ (heldJob 9223372036854775807 2).Attempts + 1 ∧
    ∀ x ∈ (runJob defaultConfig (heldStore 9223372036854775807 2)
        (heldJob 9223372036854775807 2) (some "exit status 2") 100 101).1,
      x.id = (heldJob 9223372036854775807 2).ID →
      x.attempts = -9223372036854775808 ∧
      x.attempts ≠ (heldJob 9223372036854775807 2).Attempts + 1 ∧
      x.state = StatePending := by
  decide

/-- The scenario of `TestRetryToDLQ` replayed: max_retries 2, two failing executions, the
job being made due again in between as the test does. -/
theorem retry_to_dlq_replay :
    (runJob ⟨1, 2⟩ (heldStore 0 2) (heldJob 0 2) (some "exit status 2") 100 101).1 =
      [{ id := "a", command := "exit 2", state := StatePending, attempts := 1,
         max_retries := 2, created_at := 20, updated_at := 101,
         next_run_at := some (Time.Add 100 (2 * Second)), last_error := "exit status 2" },
       sampleRow "d" StateDead 0 (some 0)] ∧
    (runJob ⟨1, 2⟩ (heldStore 1 2) (heldJob 1 2) (some "exit status 2") 200 201).1 =
      [{ id := "a", command := "exit 2", state := StateDead, attempts := 2,
         max_retries := 2, created_at := 20, updated_at := 201,
         next_run_at := some 0, last_error := "exit status 2" },
       sampleRow "d" StateDead 0 (some 0)] := by
  decide

/-- While `base'^attempts` seconds fit a `time.Duration`, a failure that does not exhaust
the retries stores the job as pending, due at `now + base'^attempts` seconds, `attempts`
being the count after the increment. -/
theorem runJob_retry_bounded (cfg : Config) (s : Store) (j : Job) (e : String)
    (now tUpd : Time) (hlo : -(2 ^ 63) ≤ j.Attempts) (hhi : j.Attempts + 1 < 2 ^ 63)
    (hlim : ¬ (if j.MaxRetries = 0 then cfg.MaxRetries else j.MaxRetries) ≤ j.Attempts + 1)
    (hbound : effectiveBase cfg ^ (j.Attempts + 1).toNat * Second < 2 ^ 63) :
    ∀ x ∈ (runJob cfg s j (some e) now tUpd).1, x.id = j.ID →
      x.state = StatePending ∧
      x.next_run_at = some (now.Add (effectiveBase cfg ^ (j.Attempts + 1).toNat * Second)) := by
  intro x hx hxid
  have hw : wrap64 (j.Attempts + 1) = j.Attempts + 1 := wrap64_of_range _ (by omega) hhi
  rw [runJob_store] at hx
  obtain ⟨r, _, _, rfl⟩ := mem_dbUpdate_same hx hxid
  rw [runJob_failure_job, hw, if_neg hlim, backoffWait_exact cfg _ hbound]
  exact ⟨rfl, rfl⟩

/-- C4, the code at an overflowing input: with `backoff_base` 100000 the second failure of
a job allowed three retries leaves it pending, but the wait is not `100000^2` seconds:
the `int64` product wraps to a negative duration, smaller than the wait after the first
failure, and `next_run_at` falls before `now`.  With base 2 the same happens from
attempt 34 on. -/
theorem runJob_backoff_overflow :
    (runJob wideConfig (heldStore 1 3) (heldJob 1 3) (some "exit status 2") 1000 1001).1 =
      [{ id := "a", command := "exit 2", state := StatePending, attempts := 2,
         max_retries := 3, created_at := 20, updated_at := 1001,
         next_run_at := some (Time.Add 1000 (-8446744073709551616)), last_error := "exit status 2" },
       sampleRow "d" StateDead 0 (some 0)] ∧
    effectiveBase wideConfig ^ 2 * Second = 10000000000000000000 ∧
    backoffWait wideConfig 2 = -8446744073709551616 ∧
    backoffWait wideConfig 1 = 100000 * Second ∧
    backoffWait wideConfig 2 < backoffWait wideConfig 1 ∧
    backoffWait defaultConfig 33 = 2 ^ 33 * Second ∧
    backoffWait defaultConfig 34 = -1266874889709551616 := by
  decide

/-! ## The step relation of the worker pool -/

theorem inv_init (s : Store) (h : idsUnique s) : Inv ⟨s, []⟩ :=
  ⟨h, List.nodup_nil, fun j hj => by simp at hj⟩

theorem step_inv (cfg : Config) {σ τ : Sys} (hinv : Inv σ) (hstep : Step cfg σ τ) : Inv τ := by
  obtain ⟨hkey, hheld, hproc⟩ := hinv
  have hpp : StatePending ≠ StateProcessing := by decide
  cases hstep with
  | claim now tUpd tRet j hj =>
    obtain ⟨r, hr, helig, hjeq, hstore⟩ := claim_some_inv hj
    have hrp : r.state = StatePending := eligible_pending helig
    have hjid : j.ID = r.id := by rw [hjeq]; rfl
    refine ⟨?_, ?_, ?_⟩
    · show idsUnique (ClaimNextPending σ.store now tUpd tRet).1
      unfold idsUnique
      rw [claim_ids]
      exact hkey
    · show ((j :: σ.held).map Job.ID).Nodup
      rw [List.map_cons, List.nodup_cons]
      refine ⟨?_, hheld⟩
      intro hmem
      obtain ⟨j0, hj0, hj0id⟩ := List.mem_map.mp hmem
      have := hproc j0 hj0 r hr (by rw [hj0id, hjid])
      rw [hrp] at this
      exact hpp this
    · intro j1 hj1 x hx hxid
      change x ∈ (ClaimNextPending σ.store now tUpd tRet).1 at hx
      rw [hstore, mem_dbUpdate] at hx
      obtain ⟨y, hy, rfl⟩ := hx
      by_cases hp : (decide (y.id = r.id) && decide (y.state = StatePending)) = true
      · rw [if_pos hp]
      · rw [if_neg hp] at hxid ⊢
        rcases List.mem_cons.mp hj1 with rfl | hj1
        · have hyr : y = r := idsUnique_eq hkey hy hr (hxid.trans hjid)
          subst hyr
          simp [hrp] at hp
        · exact hproc j1 hj1 y hy hxid
  | idle now tUpd tRet hnone =>
    refine ⟨?_, hheld, ?_⟩
    · show idsUnique (ClaimNextPending σ.store now tUpd tRet).1
      rw [claim_none_inv hnone]
      exact hkey
    · intro j1 hj1 x hx hxid
      change x ∈ (ClaimNextPending σ.store now tUpd tRet).1 at hx
      rw [claim_none_inv hnone] at hx
      exact hproc j1 hj1 x hx hxid
  | run j err now tUpd hj =>
    have hnd : σ.held.Nodup := List.Nodup.of_map _ hheld
    refine ⟨?_, ?_, ?_⟩
    · show idsUnique (runJob cfg σ.store j err now tUpd).1
      unfold idsUnique
      rw [runJob_ids]
      exact hkey
    · show ((σ.held.erase j).map Job.ID).Nodup
      exact List.Nodup.sublist (List.Sublist.map _ (List.erase_sublist j σ.held)) hheld
    · intro j1 hj1 x hx hxid
      change j1 ∈ σ.held.erase j at hj1
      change x ∈ (runJob cfg σ.store j err now tUpd).1 at hx
      rw [List.Nodup.mem_erase_iff hnd] at hj1
      have hne : j1.ID ≠ j.ID := fun h =>
        hj1.1 (List.inj_on_of_nodup_map hheld hj1.2 hj h)
      rw [runJob_store] at hx
      have hxs : x ∈ σ.store :=
        (@mem_dbUpdate_key_other σ.store j.ID
          (applyUpdate (runJob cfg σ.store j err now tUpd).2) x (fun _ => rfl)
          (by rw [hxid]; exact hne)).mp hx
      exact hproc j1 hj1.2 x hxs hxid

/-- A step leaves alone every row that is neither pending nor processing. -/
theorem step_keeps (cfg : Config) {σ τ : Sys} (hinv : Inv σ) (hstep : Step cfg σ τ)
    (r : Row) (hr : r ∈ σ.store) (h1 : r.state ≠ StatePending)
    (h2 : r.state ≠ StateProcessing) : r ∈ τ.store := by
  obtain ⟨hkey, hheld, hproc⟩ := hinv
  cases hstep with
  | claim now tUpd tRet j hj =>
    obtain ⟨r0, _, _, _, hstore⟩ := claim_some_inv hj
    show r ∈ (ClaimNextPending σ.store now tUpd tRet).1
    rw [hstore]
    exact mem_of_mem_dbUpdate_not hr (by simp [h1])
  | idle now tUpd tRet hnone =>
    show r ∈ (ClaimNextPending σ.store now tUpd tRet).1
    rw [claim_none_inv hnone]
    exact hr
  | run j err now tUpd hj =>
    show r ∈ (runJob cfg σ.store j err now tUpd).1
    rw [runJob_store]
    apply mem_of_mem_dbUpdate_not hr
    have hne : r.id ≠ j.ID := fun h => h2 (hproc j hj r hr h)
    simp [hne]

theorem reachable_inv (cfg : Config) {σ τ : Sys} (hinv : Inv σ) (h : Reachable cfg σ τ) :
    Inv τ := by
  induction h with
  | refl => exact hinv
  | tail _ hstep ih => exact step_inv cfg ih hstep

theorem reachable_keeps (cfg : Config) {σ τ : Sys} (hinv : Inv σ) (h : Reachable cfg σ τ)
    (r : Row) (hr : r ∈ σ.store) (h1 : r.state ≠ StatePending)
    (h2 : r.state ≠ StateProcessing) : r ∈ τ.store := by
  induction h with
  | refl => exact hr
  | tail hreach hstep ih => exact step_keeps cfg (reachable_inv cfg hinv hreach) hstep r ih h1 h2

/-- Each step moves every row along the job state machine or leaves it as it is. -/
theorem step_transition (cfg : Config) {σ τ : Sys} (hinv : Inv σ) (hstep : Step cfg σ τ) :
    List.Forall₂ (fun r x => x.id = r.id ∧ (x = r ∨ Transition r.state x.state))
      σ.store τ.store := by
  obtain ⟨hkey, hheld, hproc⟩ := hinv
  cases hstep with
  | claim now tUpd tRet j hj =>
    obtain ⟨r0, _, _, _, hstore⟩ := claim_some_inv hj
    show List.Forall₂ _ σ.store (ClaimNextPending σ.store now tUpd tRet).1
    rw [hstore, dbUpdate, List.forall₂_map_right_iff]
    apply List.forall₂_same.mpr
    intro r _
    by_cases hp : (decide (r.id = r0.id) && decide (r.state = StatePending)) = true
    · rw [if_pos hp]
      simp only [Bool.and_eq_true, decide_eq_true_eq] at hp
      exact ⟨rfl, Or.inr (Or.inl ⟨hp.2, rfl⟩)⟩
    · rw [if_neg hp]
      exact ⟨rfl, Or.inl rfl⟩
  | idle now tUpd tRet hnone =>
    show List.Forall₂ _ σ.store (ClaimNextPending σ.store now tUpd tRet).1
    rw [claim_none_inv hnone]
    exact List.forall₂_same.mpr (fun r _ => ⟨rfl, Or.inl rfl⟩)
  | run j err now tUpd hj =>
    show List.Forall₂ _ σ.store (runJob cfg σ.store j err now tUpd).1
    rw [runJob_store, dbUpdate, List.forall₂_map_right_iff]
    apply List.forall₂_same.mpr
    intro r hr
    by_cases hp : r.id = j.ID
    · rw [if_pos (by simp [hp])]
      exact ⟨rfl, Or.inr (Or.inr ⟨hproc j hj r hr hp, runJob_state cfg σ.store j err now tUpd⟩)⟩
    · rw [if_neg (by simp [hp])]
      exact ⟨rfl, Or.inl rfl⟩

/-- A row under a key that holds a completed row is never returned by a claim. -/
theorem claim_ne_of_settled {s : Store} (hkey : idsUnique s) {x0 : Row} (hx0 : x0 ∈ s)
    (hst : x0.state ≠ StatePending) {now tUpd tRet : Time} {k : Job}
    (hclaim : (ClaimNextPending s now tUpd tRet).2.1 = some k) : k.ID ≠ x0.id := by
  obtain ⟨r, hr, helig, hkeq, _⟩ := claim_some_inv hclaim
  intro hid
  have hrid : r.id = x0.id := by rw [← hid, hkeq]; rfl
  have : r = x0 := idsUnique_eq hkey hr hx0 hrid
  subst this
  exact hst (eligible_pending helig)

/-! ## Completion, and the terminal states -/

/-- A later operation that does not name the job `id` keeps its settled row, the key
unique and the job out of the workers' hands. -/
theorem laterStep_keeps (cfg : Config) (id : String) {σ τ : Sys} (x0 : Row)
    (hx0id : x0.id = id) (hst : x0.state ≠ StatePending)
    (hinv : idsUnique σ.store ∧ x0 ∈ σ.store ∧ ∀ h ∈ σ.held, h.ID ≠ id)
    (hstep : LaterStep cfg id σ τ) :
    idsUnique τ.store ∧ x0 ∈ τ.store ∧ ∀ h ∈ τ.held, h.ID ≠ id := by
  obtain ⟨hkey, hx0, hheld⟩ := hinv
  cases hstep with
  | worker hw =>
    cases hw with
    | claim now tUpd tRet j hj =>
      obtain ⟨r, hr, helig, hjeq, hstore⟩ := claim_some_inv hj
      refine ⟨?_, ?_, ?_⟩
      · show idsUnique (ClaimNextPending σ.store now tUpd tRet).1
        unfold idsUnique
        rw [claim_ids]
        exact hkey
      · show x0 ∈ (ClaimNextPending σ.store now tUpd tRet).1
        rw [hstore]
        exact mem_of_mem_dbUpdate_not hx0 (by simp [hst])
      · intro h hh
        rcases List.mem_cons.mp hh with rfl | hh
        · intro hid
          have hrid : r.id = x0.id := by rw [hx0id, ← hid, hjeq]; rfl
          have : r = x0 := idsUnique_eq hkey hr hx0 hrid
          subst this
          exact hst (eligible_pending helig)
        · exact hheld h hh
    | idle now tUpd tRet hnone =>
      refine ⟨?_, ?_, hheld⟩
      · show idsUnique (ClaimNextPending σ.store now tUpd tRet).1
        rw [claim_none_inv hnone]
        exact hkey
      · show x0 ∈ (ClaimNextPending σ.store now tUpd tRet).1
        rw [claim_none_inv hnone]
        exact hx0
    | run j err now tUpd hj =>
      refine ⟨?_, ?_, ?_⟩
      · show idsUnique (runJob cfg σ.store j err now tUpd).1
        unfold idsUnique
        rw [runJob_ids]
        exact hkey
      · show x0 ∈ (runJob cfg σ.store j err now tUpd).1
        rw [runJob_store]
        apply mem_of_mem_dbUpdate_not hx0
        have hne : x0.id ≠ j.ID := by rw [hx0id]; exact fun h => hheld j hj h.symm
        simp [hne]
      · intro h hh
        exact hheld h (List.mem_of_mem_erase hh)
  | save j uuid now now2 hne =>
    refine ⟨saveJob_idsUnique σ.store j uuid now now2 hkey, ?_, hheld⟩
    show x0 ∈ (SaveJob σ.store j uuid now now2).1
    rw [saveJob_cases]
    by_cases hany : σ.store.any (fun x => decide (x.id = (prepareJob j uuid now).ID)) = true
    · rw [if_pos hany]
      exact (updateJob_mem_other σ.store _ now2 x0
        (by rw [hx0id]; exact fun h => hne h.symm)).mpr hx0
    · rw [if_neg hany]
      exact List.mem_append_left _ hx0
  | retry id2 now hne =>
    refine ⟨?_, ?_, hheld⟩
    · show idsUnique (RetryJob σ.store id2 now).1
      unfold idsUnique
      rw [retryJob_ids]
      exact hkey
    · show x0 ∈ (RetryJob σ.store id2 now).1
      exact (retryJob_mem_other σ.store id2 now x0
        (by rw [hx0id]; exact fun h => hne h.symm)).mpr hx0
  | update j now hne =>
    refine ⟨?_, ?_, hheld⟩
    · show idsUnique (UpdateJob σ.store j now).1
      unfold idsUnique
      rw [updateJob_ids]
      exact hkey
    · show x0 ∈ (UpdateJob σ.store j now).1
      exact (updateJob_mem_other σ.store j now x0
        (by rw [hx0id]; exact fun h => hne h.symm)).mpr hx0
  | dead j now hne =>
    refine ⟨?_, ?_, hheld⟩
    · show idsUnique (UpdateJob σ.store { j with State := StateDead } now).1
      unfold idsUnique
      rw [updateJob_ids]
      exact hkey
    · show x0 ∈ (UpdateJob σ.store { j with State := StateDead } now).1
      exact (updateJob_mem_other σ.store { j with State := StateDead } now x0
        (by rw [hx0id]; exact fun h => hne h.symm)).mpr hx0

theorem laterReachable_keeps (cfg : Config) (id : String) {σ τ : Sys} (x0 : Row)
    (hx0id : x0.id = id) (hst : x0.state ≠ StatePending)
    (hinv : idsUnique σ.store ∧ x0 ∈ σ.store ∧ ∀ h ∈ σ.held, h.ID ≠ id)
    (hreach : LaterReachable cfg id σ τ) :
    idsUnique τ.store ∧ x0 ∈ τ.store ∧ ∀ h ∈ τ.held, h.ID ≠ id := by
  induction hreach with
  | refl => exact hinv
  | tail _ hstep ih => exact laterStep_keeps cfg id x0 hx0id hst ih hstep

/-- C6, as the code has it: when `ClaimNextPending` returns a job and its command exits
zero, the worker's `runJob` leaves the stored job completed with attempts and last_error
as they were before the claim; and no later `ClaimNextPending` returns it as long as no
`RetryJob`, `SaveJob` or `UpdateJob` names its identifier: not in any store reached by
further claims and executions of the workers (none of whom holds the job any more) and
by `SaveJob`, `RetryJob`, `UpdateJob` and `MoveToDead` under other identifiers. -/
theorem claim_then_success_settled (cfg : Config) (s : Store)
    (now tUpd tRet now2 tUpd2 : Time) (j : Job) (hkey : idsUnique s)
    (hclaim : (ClaimNextPending s now tUpd tRet).2.1 = some j) :
    ∃ r ∈ s, r.id = j.ID ∧ r.state = StatePending ∧
      (∃ x ∈ (runJob cfg (ClaimNextPending s now tUpd tRet).1 j none now2 tUpd2).1,
        x.id = j.ID) ∧
      (∀ x ∈ (runJob cfg (ClaimNextPending s now tUpd tRet).1 j none now2 tUpd2).1,
        x.id = j.ID →
        x.state = StateCompleted ∧ x.attempts = r.attempts ∧ x.last_error = r.last_error) ∧
      (∀ held τ, (∀ h ∈ held, h.ID ≠ j.ID) →
        LaterReachable cfg j.ID
          ⟨(runJob cfg (ClaimNextPending s now tUpd tRet).1 j none now2 tUpd2).1, held⟩ τ →
        ∀ (now3 t1 t2 : Time) (k : Job),
          (ClaimNextPending τ.store now3 t1 t2).2.1 = some k → k.ID ≠ j.ID) := by
  obtain ⟨r, hr, helig, hjeq, hstore⟩ := claim_some_inv hclaim
  have hrp : r.state = StatePending := eligible_pending helig
  have hjid : j.ID = r.id := by rw [hjeq]; rfl
  have hcp : StateCompleted ≠ StatePending := by decide
  have hr1 : ({ r with state := StateProcessing, updated_at := tUpd } : Row) ∈
      (ClaimNextPending s now tUpd tRet).1 := by
    rw [hstore, mem_dbUpdate]
    exact ⟨r, hr, by simp [hrp]⟩
  have hall : ∀ x ∈ (runJob cfg (ClaimNextPending s now tUpd tRet).1 j none now2 tUpd2).1,
      x.id = j.ID →
      x.state = StateCompleted ∧ x.attempts = r.attempts ∧ x.last_error = r.last_error := by
    intro x hx hxid
    rw [runJob_store] at hx
    obtain ⟨y, _, _, rfl⟩ := mem_dbUpdate_same hx hxid
    rw [runJob_success_job, hjeq]
    exact ⟨rfl, rfl, rfl⟩
  have hex : ∃ x ∈ (runJob cfg (ClaimNextPending s now tUpd tRet).1 j none now2 tUpd2).1,
      x.id = j.ID := by
    rw [runJob_store]
    exact ⟨_, mem_dbUpdate_of_same hr1 hjid.symm, hjid.symm⟩
  have hkey2 : idsUnique (runJob cfg (ClaimNextPending s now tUpd tRet).1 j none now2 tUpd2).1 := by
    unfold idsUnique
    rw [runJob_ids, claim_ids]
    exact hkey
  refine ⟨r, hr, hjid.symm, hrp, hex, hall, ?_⟩
  intro held τ hheld hreach now3 t1 t2 k hk
  obtain ⟨x0, hx0, hx0id⟩ := hex
  have hx0c : x0.state = StateCompleted := (hall x0 hx0 hx0id).1
  have hx0p : x0.state ≠ StatePending := by rw [hx0c]; exact hcp
  have hτ := laterReachable_keeps cfg j.ID x0 hx0id hx0p ⟨hkey2, hx0, hheld⟩ hreach
  have hne := claim_ne_of_settled hτ.1 hτ.2.1 hx0p hk
  rw [hx0id] at hne
  exact hne

theorem claim_then_success_settled_witness :
    (idsUnique freshStore ∧
      (ClaimNextPending freshStore 200 201 202).2.1 = some claimedFresh) ∧
    ∃ r ∈ freshStore, r.id = claimedFresh.ID ∧ r.state = StatePending ∧
      (∃ x ∈ (runJob defaultConfig (ClaimNextPending freshStore 200 201 202).1 claimedFresh
          none 300 301).1, x.id = claimedFresh.ID) ∧
      (∀ x ∈ (runJob defaultConfig (ClaimNextPending freshStore 200 201 202).1 claimedFresh
          none 300 301).1, x.id = claimedFresh.ID →
        x.state = StateCompleted ∧ x.attempts = r.attempts ∧ x.last_error = r.last_error) ∧
      (∀ τ,
        LaterReachable defaultConfig claimedFresh.ID
          ⟨(runJob defaultConfig (ClaimNextPending freshStore 200 201 202).1 claimedFresh
            none 300 301).1, []⟩ τ →
        ∀ (now3 t1 t2 : Time) (k : Job),
          (ClaimNextPending τ.store now3 t1 t2).2.1 = some k → k.ID ≠ claimedFresh.ID) := by
  refine ⟨⟨by decide, by decide⟩, ?_⟩
  obtain ⟨r, hr, h1, h2, h3, h4, h5⟩ :=
    claim_then_success_settled defaultConfig freshStore 200 201 202 300 301 claimedFresh
      (by decide) (by decide)
  exact ⟨r, hr, h1, h2, h3, h4, fun τ => h5 [] τ (fun h hh => by simp at hh)⟩

/-- C6, counterexample: the job `u1` is claimed and completes; an operator's `RetryJob` of
it, or a `SaveJob` under its identifier, makes the row pending again and the next
`ClaimNextPending` returns it. -/
theorem claim_again_after_retry :
    (ClaimNextPending freshStore 200 201 202).2.1 = some claimedFresh ∧
    (∀ x ∈ settledStore, x.id = "u1" → x.state = StateCompleted) ∧
    (ClaimNextPending (RetryJob settledStore "u1" 400).1 500 501 502).2.1.map Job.ID =
      some "u1" ∧
    (ClaimNextPending (SaveJob settledStore (jsonJob "u1" 0 0) "u2" 400 401).1
      500 501 502).2.1.map Job.ID = some "u1" := by
  decide

/-- The scenario of `TestWorkerHappyPath` replayed on the empty table. -/
theorem happy_path_replay :
    (GetJobByID
      (runJob defaultConfig
        (ClaimNextPending (SaveJob [] (newJob "echo hi" 1) "u1" 100 101).1 200 201 202).1
        { ID := "u1", Command := "echo hi", State := StateProcessing, Attempts := 0,
          MaxRetries := 1, CreatedAt := 100, UpdatedAt := 202, NextRunAt := 0,
          LastError := "" } none 300 301).1 "u1") =
      (some { ID := "u1", Command := "echo hi", State := StateCompleted, Attempts := 0,
              MaxRetries := 1, CreatedAt := 100, UpdatedAt := 301, NextRunAt := 0,
              LastError := "" }, none) := by
  decide

/-- C10: in the worker pool started with no job held, whose steps are `ClaimNextPending`
and the `runJob` of a worker on the job it claimed, a row that is completed or dead is
still there, identical in every column, in every store reached later, and each step
either leaves a row as it is or moves it pending -> processing or
processing -> completed, pending or dead. -/
theorem terminal_states_stay (cfg : Config) (s0 : Store) (σ : Sys) (hkey : idsUnique s0)
    (hreach : Reachable cfg ⟨s0, []⟩ σ) :
    (∀ τ, Reachable cfg σ τ → ∀ r ∈ σ.store,
      (r.state = StateCompleted ∨ r.state = StateDead) →
      r ∈ τ.store ∧ ∀ x ∈ τ.store, x.id = r.id → x = r) ∧
    (∀ τ, Step cfg σ τ →
      List.Forall₂ (fun r x => x.id = r.id ∧ (x = r ∨ Transition r.state x.state))
        σ.store τ.store) := by
  have hinv : Inv σ := reachable_inv cfg (inv_init s0 hkey) hreach
  refine ⟨?_, fun τ hstep => step_transition cfg hinv hstep⟩
  intro τ hτ r hr hterm
  have h1 : r.state ≠ StatePending := by
    rcases hterm with h | h <;> rw [h] <;> decide
  have h2 : r.state ≠ StateProcessing := by
    rcases hterm with h | h <;> rw [h] <;> decide
  have hrτ : r ∈ τ.store := reachable_keeps cfg hinv hτ r hr h1 h2
  exact ⟨hrτ, fun x hx hxid => idsUnique_eq (reachable_inv cfg hinv hτ).1 hx hrτ hxid⟩

theorem terminal_states_stay_witness :
    (idsUnique sampleStore ∧
      Reachable defaultConfig ⟨sampleStore, []⟩
        ⟨(ClaimNextPending sampleStore 100 101 102).1, [claimedB]⟩) ∧
    (∀ τ, Reachable defaultConfig ⟨(ClaimNextPending sampleStore 100 101 102).1, [claimedB]⟩ τ →
      ∀ r ∈ (ClaimNextPending sampleStore 100 101 102).1,
        (r.state = StateCompleted ∨ r.state = StateDead) →
        r ∈ τ.store ∧ ∀ x ∈ τ.store, x.id = r.id → x = r) :=
  ⟨⟨by decide,
    Relation.ReflTransGen.single
      (Step.claim ⟨sampleStore, []⟩ 100 101 102 claimedB (by decide))⟩,
   (terminal_states_stay defaultConfig sampleStore
      ⟨(ClaimNextPending sampleStore 100 101 102).1, [claimedB]⟩ (by decide)
      (Relation.ReflTransGen.single
        (Step.claim ⟨sampleStore, []⟩ 100 101 102 claimedB (by decide)))).1⟩

end QueueCTL
